import Mathlib

/-! Mandelbrot renderer over MPI (`02mpi.c`): embedding and verified properties.

The C program is embedded shallowly.

* A `double` is the rational number it denotes.  Every arithmetic operation on doubles in
  the coordinates and in the escape-time loop is the exact operation followed by `fl`, the
  rounding to IEEE 754 binary64 (53 significant bits, round to nearest, ties to even,
  gradual underflow); each operation is rounded on its own (no fused multiply-add, no
  extended precision).  Values stay finite: the model has no infinities and no NaN, so
  results of magnitude `2^1024` and more are outside it.  The quotient and product of line
  116 are taken exactly.
* `int` values are natural numbers; index expressions are taken without overflow.
* A `char *` is the memory reachable from it: a function from index to byte, where a byte
  is the bit pattern `0 .. 255`.  Memory past the end of a `malloc`ed block exists in the
  model (with unconstrained contents), because the program reads and writes one byte past
  its row buffers.
* `malloc` returns memory with unconstrained contents: the contents are parameters.
-/

namespace Mandel

/-! ## Data model -/

/-- Memory reachable from a `char *`: index to byte. -/
abbrev Bytes := Nat → Nat

/-- The `Image` struct of the source: dimensions and the linearised pixel matrix. -/
structure Image where
  nb_rows : Nat
  nb_columns : Nat
  pixels : Bytes

/-- Function `initialization`: records the dimensions and points `pixels` at a fresh block of
`nb_rows * nb_columns` bytes.  `heap` is what that block (and the memory after it) holds. -/
def initialization (heap : Bytes) (nb_columns nb_rows : Nat) : Image :=
  { nb_rows := nb_rows, nb_columns := nb_columns, pixels := heap }

/-- The assignment `p[pos] = v`. -/
def setPixel (p : Bytes) (pos v : Nat) : Bytes :=
  fun j => if j = pos then v else p j

/-! ## Arithmetic on `double` -/

/-- Rounding of a rational to the nearest integer, ties to the even one. -/
def roundEven (t : ℚ) : ℤ :=
  if 2 * (t - ⌊t⌋) < 1 then ⌊t⌋
  else if 1 < 2 * (t - ⌊t⌋) then ⌊t⌋ + 1
  else if ⌊t⌋ % 2 = 0 then ⌊t⌋ else ⌊t⌋ + 1

/-- Exponent of the binade of `q` in binary64: `⌊log₂ |q|⌋`, and `-1022` in the subnormal
range. -/
def binade (q : ℚ) : ℤ :=
  max (Int.log 2 |q|) (-1022)

/-- Spacing of the binary64 numbers in the binade of `q` (53 significant bits). -/
def ulp (q : ℚ) : ℚ :=
  (2 : ℚ) ^ (binade q - 52)

/-- The `double` that an operation with exact result `q` delivers: `q` rounded to the nearest
multiple of the spacing of its binade, ties to even. -/
def fl (q : ℚ) : ℚ :=
  (roundEven (q / ulp q) : ℚ) * ulp q

/-! ## The escape-time kernel (lines 104-116 of `Compute`) -/

/-- The `while (i < nb_iter)` loop of `Compute`.  The first argument is `nb_iter - i`, the
number of iterations the guard still allows; it is `0` exactly when `i < nb_iter` fails.
Each pass computes the new `x`, `y` from the old ones (`tmp` is the old `x`) with every
product, difference and sum rounded to `double`, leaves the loop with the current `i` when
the rounded `x * x + y * y` exceeds `4`, and otherwise increments `i`. -/
def whileLoop (a b : ℚ) : Nat → Nat → ℚ → ℚ → Nat
  | 0, i, _, _ => i
  | left + 1, i, x, y =>
    let tmp := x
    let x1 := fl (fl (fl (x * x) - fl (y * y)) + a)
    let y1 := fl (fl (fl (2 * tmp) * y) + b)
    if fl (fl (x1 * x1) + fl (y1 * y1)) > 4 then i else whileLoop a b left (i + 1) x1 y1

/-- Value of `i` after the loop, started as the source does with `x = 0, y = 0, i = 0`. -/
def escapeCount (nb_iter : Nat) (a b : ℚ) : Nat :=
  whileLoop a b nb_iter 0 0 0

/-- Conversion of a `double` to `char` as stored in memory: the value is truncated toward
zero and the low eight bits are kept. -/
def toChar (v : ℚ) : Nat :=
  ((if 0 ≤ v then ⌊v⌋ else ⌈v⌉) % 256).toNat

/-- Right-hand side of line 116, `(double) i / nb_iter * 255`, stored into a `char`. -/
def intensity (nb_iter i : Nat) : Nat :=
  toChar ((i : ℚ) / (nb_iter : ℚ) * 255)

/-- Byte that `Compute` stores for the point `(a, b)`. -/
def pixelValue (nb_iter : Nat) (a b : ℚ) : Nat :=
  intensity nb_iter (escapeCount nb_iter a b)

/-! ## `Compute` -/

/-- Body of the inner `for (c ...)` loop: one pixel is computed and stored at `pos`,
and `pos` is incremented. -/
def columnBody (nb_iter : Nat) (x_min y_max dx dy : ℚ) (l : Nat) (st : Bytes × Nat) (c : Nat) :
    Bytes × Nat :=
  let a := fl (x_min + fl ((c : ℚ) * dx))
  let b := fl (y_max - fl ((l : ℚ) * dy))
  let i := escapeCount nb_iter a b
  (setPixel st.1 st.2 (intensity nb_iter i), st.2 + 1)

/-- Body of the outer `for (l ...)` loop: the inner loop over the columns. -/
def rowBody (nb_iter nb_columns : Nat) (x_min y_max dx dy : ℚ) (st : Bytes × Nat) (l : Nat) :
    Bytes × Nat :=
  (List.range nb_columns).foldl (columnBody nb_iter x_min y_max dx dy l) st

/-- Function `Compute`: fills `im.pixels[0 .. nb_rows * nb_columns)` row by row.  The state of
the loops is the pixel memory and the running index `pos`. -/
def Compute (im : Image) (nb_iter : Nat) (x_min x_max y_min y_max : ℚ) : Image :=
  let dx := fl (fl (x_max - x_min) / (im.nb_columns : ℚ))
  let dy := fl (fl (y_max - y_min) / (im.nb_rows : ℚ))
  let st := (List.range im.nb_rows).foldl (rowBody nb_iter im.nb_columns x_min y_max dx dy)
    (im.pixels, 0)
  { im with pixels := st.1 }

/-! ## The orbit in `double` arithmetic -/

/-- One update of the loop body (lines 107-109): the next `(x, y)`. -/
def floatUpdate (a b : ℚ) (z : ℚ × ℚ) : ℚ × ℚ :=
  (fl (fl (fl (z.1 * z.1) - fl (z.2 * z.2)) + a), fl (fl (fl (2 * z.1) * z.2) + b))

/-- The iterates the loop computes: `floatOrbit a b k` is `(x, y)` after `k` updates. -/
def floatOrbit (a b : ℚ) : Nat → ℚ × ℚ
  | 0 => (0, 0)
  | k + 1 => floatUpdate a b (floatOrbit a b k)

/-- The divergence test of line 110 as the program evaluates it. -/
def floatEscaped (z : ℚ × ℚ) : Prop :=
  fl (fl (z.1 * z.1) + fl (z.2 * z.2)) > 4

instance (z : ℚ × ℚ) : Decidable (floatEscaped z) := by
  unfold floatEscaped; infer_instance

/-! ## Mathematical reference for the kernel (exact arithmetic) -/

/-- Orbit of `0` under `z ↦ z² + c` with `c = a + b i`, as pairs (real part, imaginary part):
`orbit a b k` is `z_k`. -/
def orbit (a b : ℚ) : Nat → ℚ × ℚ
  | 0 => (0, 0)
  | k + 1 =>
    let z := orbit a b k
    (z.1 * z.1 - z.2 * z.2 + a, 2 * z.1 * z.2 + b)

/-- The divergence test `|z|² > 4`. -/
def escaped (z : ℚ × ℚ) : Prop :=
  z.1 * z.1 + z.2 * z.2 > 4

instance (z : ℚ × ℚ) : Decidable (escaped z) := by
  unfold escaped; infer_instance

/-- The escape-time count of the specification from `i` completed updates on: the count
stops at the first `i` whose next iterate `z_{i+1}` has `|z|² > 4`. -/
def exactCountFrom (a b : ℚ) : Nat → Nat → Nat
  | 0, i => i
  | left + 1, i => if escaped (orbit a b (i + 1)) then i else exactCountFrom a b left (i + 1)

/-- The escape-time count of the specification, in exact arithmetic: the number of updates
completed before the first iterate with `|z|² > 4`, and `iterMax` when none of
`z_1 .. z_iterMax` has `|z|² > 4`. -/
def exactCount (iterMax : Nat) (a b : ℚ) : Nat :=
  exactCountFrom a b iterMax 0

/-- Rounding to the nearest integer, the mapping written in the specification: `round(i / iterMax × 255)`
clamped to `[0, 255]`. -/
def roundedIntensity (iterMax i : Nat) : Int :=
  max 0 (min 255 (round ((i : ℚ) / (iterMax : ℚ) * 255)))


/-! ## Configuration, memory writes and MPI calls -/

/-- The values `analyzis` hands to `main`. -/
structure Config where
  nb_iter : Nat
  x_min : ℚ
  x_max : ℚ
  y_min : ℚ
  y_max : ℚ
  width : Nat
  height : Nat

/-- An access of a process to the image or to the transport, as recorded in its trace. -/
inductive Event where
  /-- The assignment `im.pixels[idx] = ...` of the copy loop of rank 0. -/
  | copy (idx : Nat)
  /-- A call of `MPI_Send` to `dest`; `data` is the bytes read from the send buffer. -/
  | send (dest : Nat) (data : List Nat)
  /-- A call of `MPI_Recv` from `src` that stored `len` bytes at `im.pixels[l ..]`. -/
  | recv (src l len : Nat)
  deriving DecidableEq

/-- Indices of `im.pixels` that an event stores to. -/
def Event.writes : Event → List Nat
  | Event.copy idx => [idx]
  | Event.send _ _ => []
  | Event.recv _ l len => List.range' l len

/-- State of one process inside the round loop of `main`: the memory at `im.pixels` and the
trace of its accesses so far. -/
structure Proc where
  pixels : Bytes
  trace : List Event

/-- All indices of `im.pixels` stored to, in program order. -/
def Proc.written (st : Proc) : List Nat :=
  st.trace.flatMap Event.writes

/-- The assignment `im.pixels[idx] = v` (line 163). -/
def store (st : Proc) (idx v : Nat) : Proc :=
  { pixels := setPixel st.pixels idx v, trace := st.trace ++ [Event.copy idx] }

/-- Consecutive stores of the bytes of a message, starting at index `l`. -/
def storeBytes (p : Bytes) (l : Nat) : List Nat → Bytes
  | [] => p
  | v :: vs => storeBytes (setPixel p l v) (l + 1) vs

/-- The message of an `MPI_Send (buf, count, MPI_CHAR, ...)`: the bytes `buf[0 .. count)`. -/
def sendBuffer (buf : Bytes) (count : Nat) : List Nat :=
  (List.range count).map buf

/-- The call `MPI_Send (buf, count, MPI_CHAR, dest, tag, MPI_COMM_WORLD)`. -/
def MPI_Send (st : Proc) (buf : Bytes) (count dest : Nat) : Proc :=
  { st with trace := st.trace ++ [Event.send dest (sendBuffer buf count)] }

/-- The call `MPI_Recv (&im.pixels[l], count, MPI_CHAR, src, tag, MPI_COMM_WORLD, &status)` that
is matched with the message `msg`: the bytes of the message are stored from index `l` on.
The receive buffer holds `count` elements; every message of this program has exactly `count`
bytes (`message_length`), so the `take` never shortens one. -/
def MPI_Recv (st : Proc) (l count src : Nat) (msg : List Nat) : Proc :=
  { pixels := storeBytes st.pixels l (msg.take count),
    trace := st.trace ++ [Event.recv src l (msg.take count).length] }

/-! ## The round loop of `main` -/

/-- Local `ht_pvt = 1`. -/
def ht_pvt : Nat := 1

/-- Local `pvt_area = (int)(width*ht_pvt)`. -/
def pvt_area (cfg : Config) : Nat := cfg.width * ht_pvt

/-- Local `roll = height/size`. -/
def roll (cfg : Config) (size : Nat) : Nat := cfg.height / size

/-- The row index `ht_wise*size + r` that line 167 multiplies by `pvt_area` to get the
buffer offset of rank `r` in round `ht_wise`. -/
def globalRow (size ht_wise r : Nat) : Nat := ht_wise * size + r

/-- Lines 153-156: `imloc` after the call of `Compute` in round `ht_wise` on rank `rank`.
`heapLoc rank ht_wise` is what the memory at `imloc.pixels` holds when the call is made;
`imloc` has `width` bytes, the contents of the memory after them are unconstrained. -/
def localRow (cfg : Config) (size : Nat) (heapLoc : Nat → Nat → Bytes) (rank ht_wise : Nat) :
    Image :=
  let dy := fl (fl (cfg.y_max - cfg.y_min) / (cfg.height : ℚ))
  let pvt_ymax := fl (cfg.y_max - fl (dy * ((rank + size * ht_wise : Nat) : ℚ)))
  let pvt_ymin := fl (pvt_ymax - dy)
  Compute (initialization (heapLoc rank ht_wise) cfg.width ht_pvt) cfg.nb_iter
    cfg.x_min cfg.x_max pvt_ymin pvt_ymax

/-- The message that rank `rank` hands to `MPI_Send` in round `ht_wise` (line 158):
`pvt_area + 1` bytes starting at `imloc.pixels[0]`. -/
def message (cfg : Config) (size : Nat) (heapLoc : Nat → Nat → Bytes) (rank ht_wise : Nat) :
    List Nat :=
  sendBuffer (localRow cfg size heapLoc rank ht_wise).pixels (pvt_area cfg + 1)

/-- Lines 162-163: rank 0 copies its own row into `im`. -/
def copyRow (cfg : Config) (size ht_wise : Nat) (imloc : Image) (st : Proc) : Proc :=
  (List.range cfg.width).foldl
    (fun s i => store s (ht_wise * size * pvt_area cfg + i) (imloc.pixels i)) st

/-- Lines 167-168: the receive from rank `r` in round `ht_wise`, matched with `msg`. -/
def recvRow (cfg : Config) (size ht_wise : Nat) (st : Proc) (r : Nat) (msg : List Nat) : Proc :=
  let l := globalRow size ht_wise r * pvt_area cfg
  MPI_Recv st l (pvt_area cfg + 1) r msg

/-- Body of the round loop (lines 153-170) as executed by rank `rank` of `size` processes.
Messages between one pair of processes are not overtaken and every rank sends one message
per round, so the receive from `r` in round `ht_wise` is matched with the message that `r`
sent in its round `ht_wise`; `step` and `run` below model the transport itself. -/
def roundBody (cfg : Config) (size rank : Nat) (heapLoc : Nat → Nat → Bytes)
    (st : Proc) (ht_wise : Nat) : Proc :=
  let imloc := localRow cfg size heapLoc rank ht_wise
  let st1 := if rank ≠ 0 then MPI_Send st imloc.pixels (pvt_area cfg + 1) 0 else st
  if rank = 0 then
    (List.range' 1 (size - 1)).foldl
      (fun s r => recvRow cfg size ht_wise s r (message cfg size heapLoc r ht_wise))
      (copyRow cfg size ht_wise imloc st1)
  else st1

/-- The round loop of `main` (lines 137-171) on rank `rank`: the state of the process when
the loop is left.  `heapIm` is what the block allocated for `im` (and the memory after it)
holds right after `initialization`. -/
def mainLoop (cfg : Config) (size rank : Nat) (heapIm : Bytes) (heapLoc : Nat → Nat → Bytes) :
    Proc :=
  let im := initialization heapIm cfg.width cfg.height
  (List.range (roll cfg size)).foldl (roundBody cfg size rank heapLoc)
    { pixels := im.pixels, trace := [] }

/-! ## The transport: one FIFO queue per sending rank -/

/-- Global state of the run: the assembler (rank 0) with its position in the round loop, the
round each other rank is in, and the queue of messages in flight from each rank. -/
structure Net where
  /-- Process state of rank 0. -/
  asm : Proc
  /-- Value of `ht_wise` on rank 0. -/
  asmRound : Nat
  /-- Position of rank 0 inside the round: `0` before its own row is computed and copied, `r ≥ 1` when
  the next call is the receive from rank `r`. -/
  asmNext : Nat
  /-- Value of `ht_wise` on every other rank. -/
  workerRound : Nat → Nat
  /-- Messages sent by each rank and not yet received, oldest first. -/
  queue : Nat → List (List Nat)

/-- State before the first round. -/
def Net.init (cfg : Config) (heapIm : Bytes) : Net :=
  { asm := { pixels := (initialization heapIm cfg.width cfg.height).pixels, trace := [] },
    asmRound := 0, asmNext := 0, workerRound := fun _ => 0, queue := fun _ => [] }

/-- One step of process `p`, or `none` when `p` cannot move: it has left the loop, it is not a
rank of the group, or it is rank 0 blocked in a receive on an empty queue.  A step of a rank
`p ≥ 1` is one round (compute the row, send it); a step of rank 0 is either the computation and
copy of its own row or one receive, which takes the head of the queue of the awaited rank. -/
def step (cfg : Config) (size : Nat) (heapLoc : Nat → Nat → Bytes) (s : Net) (p : Nat) :
    Option Net :=
  if p = 0 then
    if s.asmRound < roll cfg size then
      if s.asmNext = 0 then
        let asm1 := copyRow cfg size s.asmRound (localRow cfg size heapLoc 0 s.asmRound) s.asm
        if 1 < size then some { s with asm := asm1, asmNext := 1 }
        else some { s with asm := asm1, asmRound := s.asmRound + 1 }
      else
        match s.queue s.asmNext with
        | [] => none
        | msg :: rest =>
          let asm1 := recvRow cfg size s.asmRound s.asm s.asmNext msg
          let q := Function.update s.queue s.asmNext rest
          if s.asmNext + 1 < size then
            some { s with asm := asm1, queue := q, asmNext := s.asmNext + 1 }
          else
            some { s with asm := asm1, queue := q, asmRound := s.asmRound + 1, asmNext := 0 }
    else none
  else if p < size then
    if s.workerRound p < roll cfg size then
      some { s with
        workerRound := Function.update s.workerRound p (s.workerRound p + 1),
        queue := Function.update s.queue p
          (s.queue p ++ [message cfg size heapLoc p (s.workerRound p)]) }
    else none
  else none

/-- Run of a schedule: the processes move in the listed order; `none` when a listed process
cannot move. -/
def run (cfg : Config) (size : Nat) (heapLoc : Nat → Nat → Bytes) : Net → List Nat → Option Net
  | s, [] => some s
  | s, p :: ps =>
    match step cfg size heapLoc s p with
    | none => none
    | some s1 => run cfg size heapLoc s1 ps

/-- Column coordinate of the program: `a = x_min + c * dx` with `dx = (x_max - x_min) / width`,
every operation rounded to `double`. -/
def columnCoord (cfg : Config) (c : Nat) : ℚ :=
  fl (cfg.x_min + fl ((c : ℚ) * fl (fl (cfg.x_max - cfg.x_min) / (cfg.width : ℚ))))

/-- Row coordinate of the program: `b = y_max - dy * r` with `dy = (y_max - y_min) / height`,
every operation rounded to `double`. -/
def rowCoord (cfg : Config) (r : Nat) : ℚ :=
  fl (cfg.y_max - fl (fl (fl (cfg.y_max - cfg.y_min) / (cfg.height : ℚ)) * (r : ℚ)))

/-- Value that the final image holds at row `r`, column `c`: the byte of the kernel at the
coordinates the program computes for that pixel. -/
def expectedPixel (cfg : Config) (r c : Nat) : Nat :=
  pixelValue cfg.nb_iter (columnCoord cfg c) (rowCoord cfg r)

/-! ## Auxiliary definitions used in the statements and proofs -/

/-- State of rank 0 after `n` complete rounds. -/
def rounds (cfg : Config) (size : Nat) (heapIm : Bytes) (heapLoc : Nat → Nat → Bytes) (n : Nat) :
    Proc :=
  (List.range n).foldl (roundBody cfg size 0 heapLoc)
    { pixels := (initialization heapIm cfg.width cfg.height).pixels, trace := [] }

/-- Accesses of rank 0 in round `k`: the `width` stores of the copy loop, then one receive of
`pvt_area + 1` bytes from each rank `1 .. size - 1` in ascending order. -/
def roundTrace (cfg : Config) (size k : Nat) : List Event :=
  (List.range cfg.width).map (fun i => Event.copy (k * size * pvt_area cfg + i)) ++
  (List.range' 1 (size - 1)).map
    (fun r => Event.recv r (globalRow size k r * pvt_area cfg) (pvt_area cfg + 1))

/-- State of rank 0 at position `ra` of round `k`: after `k` complete rounds and, when
`ra ≥ 1`, after the copy of its own row and the receives from ranks `1 .. ra - 1`. -/
def asmState (cfg : Config) (size : Nat) (heapIm : Bytes) (heapLoc : Nat → Nat → Bytes)
    (k ra : Nat) : Proc :=
  if ra = 0 then rounds cfg size heapIm heapLoc k
  else
    (List.range' 1 (ra - 1)).foldl
      (fun s r => recvRow cfg size k s r (message cfg size heapLoc r k))
      (copyRow cfg size k (localRow cfg size heapLoc 0 k) (rounds cfg size heapIm heapLoc k))

/-- Number of messages of rank `r` that rank 0 has received. -/
def Net.recvd (s : Net) (r : Nat) : Nat :=
  if r < s.asmNext then s.asmRound + 1 else s.asmRound

/-- Invariant of the runs: rank 0 is in the state its position determines, and the queue of
every rank holds, in order, the messages of the rounds that rank has completed and rank 0 has
not yet received. -/
structure NetInv (cfg : Config) (size : Nat) (heapIm : Bytes) (heapLoc : Nat → Nat → Bytes)
    (s : Net) : Prop where
  asm_eq : s.asm = asmState cfg size heapIm heapLoc s.asmRound s.asmNext
  next_lt : s.asmNext = 0 ∨ s.asmNext < size
  next_round : s.asmNext ≠ 0 → s.asmRound < roll cfg size
  queues : ∀ r, 1 ≤ r → r < size →
    ∃ m, s.queue r = (List.range' (s.recvd r) m).map (message cfg size heapLoc r) ∧
      s.workerRound r = s.recvd r + m


/-- Schedule of one round in lock step: rank 0 computes and copies its row, then each rank
`1 .. size - 1` in turn sends its row and rank 0 receives it. -/
def roundSchedule (size : Nat) : List Nat :=
  0 :: (List.range' 1 (size - 1)).flatMap (fun r => [r, 0])

/-- The lock-step schedule of a whole run. -/
def lockStepSchedule (cfg : Config) (size : Nat) : List Nat :=
  (List.range (roll cfg size)).flatMap (fun _ => roundSchedule size)

/-- State reached in lock step: rank 0 at position `ra` of round `k`, all queues empty, the
ranks below `ra` one round ahead. -/
def LockStep (size : Nat) (s : Net) (k ra : Nat) : Prop :=
  s.asmRound = k ∧ s.asmNext = ra ∧
  ∀ r, 1 ≤ r → r < size → s.queue r = [] ∧ s.workerRound r = if r < ra then k + 1 else k
/-! ## The kernel: lemmas -/

/-! ### Rounding to `double` -/

theorem roundEven_intCast (z : ℤ) : roundEven (z : ℚ) = z := by
  unfold roundEven
  rw [Int.floor_intCast]
  simp

theorem floor_le_roundEven (t : ℚ) : ⌊t⌋ ≤ roundEven t := by
  unfold roundEven
  split_ifs <;> omega

theorem roundEven_le_floor_succ (t : ℚ) : roundEven t ≤ ⌊t⌋ + 1 := by
  unfold roundEven
  split_ifs <;> omega

theorem ulp_pos (q : ℚ) : 0 < ulp q := by
  unfold ulp
  positivity

theorem fl_zero : fl 0 = 0 := by
  unfold fl
  rw [zero_div]
  have : roundEven 0 = 0 := by
    have := roundEven_intCast 0
    simpa using this
  rw [this]
  simp

theorem binade_ge (q : ℚ) : -1022 ≤ binade q := le_max_right _ _

/-- Binade of a number with known bounds. -/
theorem binade_eq (q : ℚ) (e : ℤ) (he : -1022 ≤ e) (h1 : (2 : ℚ) ^ e ≤ |q|)
    (h2 : |q| < (2 : ℚ) ^ (e + 1)) : binade q = e := by
  have hpos : 0 < |q| := lt_of_lt_of_le (by positivity) h1
  have hlog : Int.log 2 |q| = e := by
    apply le_antisymm
    · have := (Int.lt_zpow_iff_log_lt (b := 2) (by norm_num) hpos (x := e + 1)).mp
        (by simpa using h2)
      omega
    · exact (Int.zpow_le_iff_le_log (b := 2) (by norm_num) hpos).mp (by simpa using h1)
  unfold binade
  rw [hlog]
  exact max_eq_left he

/-- Evaluation of `fl` at a number whose binade is known. -/
theorem fl_eval (q : ℚ) (e m : ℤ) (he : -1022 ≤ e) (h1 : (2 : ℚ) ^ e ≤ |q|)
    (h2 : |q| < (2 : ℚ) ^ (e + 1)) (hm : roundEven (q / (2 : ℚ) ^ (e - 52)) = m) :
    fl q = (m : ℚ) * (2 : ℚ) ^ (e - 52) := by
  unfold fl ulp
  rw [binade_eq q e he h1 h2, hm]

theorem abs_lt_zpow_binade_succ (q : ℚ) : |q| < (2 : ℚ) ^ (binade q + 1) := by
  have h := Int.lt_zpow_succ_log_self (b := 2) (by norm_num) |q|
  have hle : Int.log 2 |q| + 1 ≤ binade q + 1 := by
    have : Int.log 2 |q| ≤ binade q := le_max_left _ _
    omega
  calc |q| < ((2 : ℕ) : ℚ) ^ (Int.log 2 |q| + 1) := h
    _ = (2 : ℚ) ^ (Int.log 2 |q| + 1) := by norm_num
    _ ≤ (2 : ℚ) ^ (binade q + 1) := zpow_le_zpow_right₀ (by norm_num) hle

theorem fl_of_int (x : ℚ) (z : ℤ) (h : x / ulp x = (z : ℚ)) : fl x = x := by
  unfold fl
  rw [h, roundEven_intCast, ← h]
  exact div_mul_cancel₀ x (ne_of_gt (ulp_pos x))

theorem abs_roundEven_le (t : ℚ) (h : |t| < (2 : ℚ) ^ (53 : ℕ)) :
    |roundEven t| ≤ (2 : ℤ) ^ (53 : ℕ) := by
  have hlt := abs_lt.mp h
  have h1 : (-(2 : ℤ) ^ (53 : ℕ)) ≤ ⌊t⌋ := by
    apply Int.le_floor.mpr
    push_cast
    exact le_of_lt hlt.1
  have h2 : ⌊t⌋ < (2 : ℤ) ^ (53 : ℕ) := by
    apply Int.floor_lt.mpr
    push_cast
    exact hlt.2
  have h3 := floor_le_roundEven t
  have h4 := roundEven_le_floor_succ t
  rw [abs_le]
  constructor <;> omega

/-- A binary64 value rounds to itself. -/
theorem fl_idem (q : ℚ) : fl (fl q) = fl q := by
  set e := binade q with he
  set m := roundEven (q / ulp q) with hm
  have hu : ulp q = (2 : ℚ) ^ (e - 52) := rfl
  have hr : fl q = (m : ℚ) * (2 : ℚ) ^ (e - 52) := rfl
  have hege : -1022 ≤ e := binade_ge q
  by_cases hm0 : m = 0
  · rw [hr, hm0]
    simp [fl_zero]
  have h2pos : (0 : ℚ) < (2 : ℚ) ^ (e - 52) := by positivity
  -- the scaled value is below 2^53 in magnitude
  have ht : |q / ulp q| < (2 : ℚ) ^ (53 : ℕ) := by
    rw [abs_div, abs_of_pos (ulp_pos q), hu, div_lt_iff₀ h2pos]
    have h := abs_lt_zpow_binade_succ q
    have e1 : (2 : ℚ) ^ (53 : ℕ) * (2 : ℚ) ^ (e - 52) = (2 : ℚ) ^ (binade q + 1) := by
      rw [← zpow_natCast, ← zpow_add₀ (by norm_num : (2 : ℚ) ≠ 0)]
      congr 1
      rw [← he]; push_cast; ring
    rw [e1]; exact h
  have hmle : |m| ≤ (2 : ℤ) ^ (53 : ℕ) := abs_roundEven_le _ ht
  set r := fl q with hrdef
  have hrabs : |r| = (|m| : ℚ) * (2 : ℚ) ^ (e - 52) := by
    rw [hr, abs_mul, abs_of_pos h2pos]
  have hmpos : (0 : ℚ) < (|m| : ℚ) := by
    have : 0 < |m| := abs_pos.mpr hm0
    exact_mod_cast this
  have hrpos : 0 < |r| := by rw [hrabs]; positivity
  have hrle : |r| ≤ (2 : ℚ) ^ (e + 1) := by
    rw [hrabs]
    have e1 : (2 : ℚ) ^ (e + 1) = (2 : ℚ) ^ (53 : ℕ) * (2 : ℚ) ^ (e - 52) := by
      rw [← zpow_natCast, ← zpow_add₀ (by norm_num : (2 : ℚ) ≠ 0)]
      congr 1
      push_cast; ring
    rw [e1]
    apply mul_le_mul_of_nonneg_right _ (le_of_lt h2pos)
    exact_mod_cast hmle
  have hlogle : Int.log 2 |r| ≤ e + 1 := by
    have hlt : |r| < ((2 : ℕ) : ℚ) ^ (e + 2) := by
      have : (2 : ℚ) ^ (e + 1) < (2 : ℚ) ^ (e + 2) :=
        zpow_lt_zpow_right₀ (by norm_num) (by omega)
      push_cast
      exact lt_of_le_of_lt hrle this
    have := (Int.lt_zpow_iff_log_lt (b := 2) (by norm_num) hrpos).mp hlt
    omega
  have hbin : binade r = max (Int.log 2 |r|) (-1022) := rfl
  by_cases hcase : binade r ≤ e
  · -- the spacing does not grow: the scaled value is an integer
    obtain ⟨n, hn⟩ : ∃ n : ℕ, e - binade r = (n : ℤ) :=
      ⟨(e - binade r).toNat, (Int.toNat_of_nonneg (by omega)).symm⟩
    apply fl_of_int r (m * (2 : ℤ) ^ n)
    unfold ulp
    obtain ⟨b, hb⟩ : ∃ b, binade r = b := ⟨_, rfl⟩
    rw [hb] at hn
    rw [hb, hr, mul_div_assoc, ← zpow_sub₀ (by norm_num : (2 : ℚ) ≠ 0)]
    have e1 : e - 52 - (b - 52) = (n : ℤ) := by omega
    rw [e1, zpow_natCast]
    push_cast
    rfl
  · -- the value is the first number of the next binade
    have hbe : binade r = e + 1 := by
      rw [hbin] at hcase ⊢
      rcases max_cases (Int.log 2 |r|) (-1022) with ⟨h1, _⟩ | ⟨h1, _⟩
      · rw [h1] at hcase ⊢; omega
      · rw [h1] at hcase; omega
    have hlog : Int.log 2 |r| = e + 1 := by
      rw [hbin] at hbe
      rcases max_cases (Int.log 2 |r|) (-1022) with ⟨h1, _⟩ | ⟨h1, _⟩
      · rw [h1] at hbe; exact hbe
      · rw [h1] at hbe; omega
    have hge : (2 : ℚ) ^ (e + 1) ≤ |r| := by
      have := Int.zpow_log_le_self (b := 2) (by norm_num) hrpos
      rw [hlog] at this
      simpa using this
    have hreq : |r| = (2 : ℚ) ^ (e + 1) := le_antisymm hrle hge
    have hmabs : (|m| : ℚ) = (2 : ℚ) ^ (53 : ℕ) := by
      have e1 : (2 : ℚ) ^ (e + 1) = (2 : ℚ) ^ (53 : ℕ) * (2 : ℚ) ^ (e - 52) := by
        rw [← zpow_natCast, ← zpow_add₀ (by norm_num : (2 : ℚ) ≠ 0)]
        congr 1
        push_cast; ring
      rw [hrabs, e1] at hreq
      exact mul_right_cancel₀ (ne_of_gt h2pos) hreq
    have hmabs2 : |m| = (2 : ℤ) ^ (53 : ℕ) := by exact_mod_cast hmabs
    obtain ⟨z, hz⟩ : ∃ z : ℤ, m = 2 * z := by
      rcases abs_cases m with ⟨h1, _⟩ | ⟨h1, _⟩
      · exact ⟨(2 : ℤ) ^ (52 : ℕ), by rw [← h1, hmabs2]; norm_num⟩
      · exact ⟨-(2 : ℤ) ^ (52 : ℕ), by
          have : m = -|m| := by omega
          rw [this, hmabs2]; norm_num⟩
    apply fl_of_int r z
    unfold ulp
    rw [hbe, hr, hz, mul_div_assoc, ← zpow_sub₀ (by norm_num : (2 : ℚ) ≠ 0)]
    have e1 : e - 52 - (e + 1 - 52) = -1 := by omega
    rw [e1, zpow_neg_one]
    push_cast
    ring

theorem roundEven_of_lt (t : ℚ) (f : ℤ) (h1 : (f : ℚ) ≤ t) (h2 : 2 * (t - f) < 1) :
    roundEven t = f := by
  have hf : ⌊t⌋ = f := by
    rw [Int.floor_eq_iff]
    constructor
    · exact h1
    · linarith
  unfold roundEven
  rw [hf, if_pos h2]

theorem roundEven_of_gt (t : ℚ) (f : ℤ) (h1 : t < (f : ℚ) + 1) (h2 : 1 < 2 * (t - f)) :
    roundEven t = f + 1 := by
  have hf : ⌊t⌋ = f := by
    rw [Int.floor_eq_iff]
    constructor
    · linarith
    · exact h1
  unfold roundEven
  rw [hf, if_neg (by linarith), if_pos h2]

/-- An integer multiple `z * 2^k` with `|z| < 2^53` and `k ≥ -1074` is a `double`. -/
theorem fl_of_scaled (z : ℤ) (k : ℤ) (hk : -1074 ≤ k) (hz : |z| < (2 : ℤ) ^ (53 : ℕ)) :
    fl ((z : ℚ) * (2 : ℚ) ^ k) = (z : ℚ) * (2 : ℚ) ^ k := by
  by_cases hz0 : z = 0
  · rw [hz0]; simp [fl_zero]
  set x := (z : ℚ) * (2 : ℚ) ^ k with hx
  have h2pos : (0 : ℚ) < (2 : ℚ) ^ k := by positivity
  have hxabs : |x| = (|z| : ℚ) * (2 : ℚ) ^ k := by
    rw [hx, abs_mul, abs_of_pos h2pos]
  have hxpos : 0 < |x| := by
    rw [hxabs]
    have : (0 : ℚ) < (|z| : ℚ) := by
      have : 0 < |z| := abs_pos.mpr hz0
      exact_mod_cast this
    positivity
  have hxlt : |x| < ((2 : ℕ) : ℚ) ^ (k + 53) := by
    rw [hxabs]
    have e1 : ((2 : ℕ) : ℚ) ^ (k + 53) = (2 : ℚ) ^ (53 : ℕ) * (2 : ℚ) ^ k := by
      rw [← zpow_natCast, ← zpow_add₀ (by norm_num : (2 : ℚ) ≠ 0)]
      push_cast
      congr 1
      ring
    rw [e1]
    apply mul_lt_mul_of_pos_right _ h2pos
    exact_mod_cast hz
  have hlog : Int.log 2 |x| < k + 53 :=
    (Int.lt_zpow_iff_log_lt (b := 2) (by norm_num) hxpos).mp hxlt
  have hbin : binade x ≤ k + 52 := by
    unfold binade
    apply max_le <;> omega
  obtain ⟨n, hn⟩ : ∃ n : ℕ, k - (binade x - 52) = (n : ℤ) :=
    ⟨(k - (binade x - 52)).toNat, (Int.toNat_of_nonneg (by omega)).symm⟩
  apply fl_of_int x (z * (2 : ℤ) ^ n)
  unfold ulp
  obtain ⟨b, hb⟩ : ∃ b, binade x = b := ⟨_, rfl⟩
  rw [hb] at hn
  rw [hb, hx, mul_div_assoc, ← zpow_sub₀ (by norm_num : (2 : ℚ) ≠ 0), hn, zpow_natCast]
  push_cast
  rfl

/-! ### The loop -/

theorem floatOrbit_zero (a b : ℚ) : floatOrbit a b 0 = (0, 0) := rfl

theorem floatOrbit_succ (a b : ℚ) (k : Nat) :
    floatOrbit a b (k + 1) = floatUpdate a b (floatOrbit a b k) := rfl

theorem whileLoop_zero (a b : ℚ) (i : Nat) (x y : ℚ) : whileLoop a b 0 i x y = i := rfl

theorem whileLoop_succ (a b : ℚ) (left i : Nat) (x y : ℚ) :
    whileLoop a b (left + 1) i x y =
      if fl (fl ((floatUpdate a b (x, y)).1 * (floatUpdate a b (x, y)).1) +
          fl ((floatUpdate a b (x, y)).2 * (floatUpdate a b (x, y)).2)) > 4
      then i
      else whileLoop a b left (i + 1) (floatUpdate a b (x, y)).1 (floatUpdate a b (x, y)).2 :=
  rfl

/-- Loop invariant of the escape-time loop: when the loop is entered with `i` updates done and
`(x, y)` the `i`-th iterate, it ends with a count `res` in `[i, i + left]`, no iterate `k`
with `i < k ≤ res` has passed the divergence test, and if the loop ended before the guard
failed then iterate `res + 1` has passed it. -/
theorem whileLoop_spec (a b : ℚ) (left : Nat) :
    ∀ (i : Nat) (x y : ℚ), floatOrbit a b i = (x, y) →
      i ≤ whileLoop a b left i x y ∧
      whileLoop a b left i x y ≤ i + left ∧
      (∀ k, i < k → k ≤ whileLoop a b left i x y → ¬ floatEscaped (floatOrbit a b k)) ∧
      (whileLoop a b left i x y < i + left →
        floatEscaped (floatOrbit a b (whileLoop a b left i x y + 1))) := by
  induction left with
  | zero =>
    intro i x y _
    simp only [whileLoop_zero]
    refine ⟨le_refl _, le_refl _, ?_, ?_⟩
    · intro k h1 h2; omega
    · intro h; omega
  | succ left ih =>
    intro i x y hxy
    have hnext : floatOrbit a b (i + 1) = floatUpdate a b (x, y) := by
      rw [floatOrbit_succ, hxy]
    rw [whileLoop_succ]
    by_cases hesc : floatEscaped (floatOrbit a b (i + 1))
    · have hesc2 := hesc
      rw [hnext] at hesc2
      unfold floatEscaped at hesc2
      rw [if_pos hesc2]
      refine ⟨le_refl _, by omega, ?_, ?_⟩
      · intro k h1 h2; omega
      · intro _; exact hesc
    · have hesc2 := hesc
      rw [hnext] at hesc2
      unfold floatEscaped at hesc2
      rw [if_neg hesc2]
      obtain ⟨h1, h2, h3, h4⟩ := ih (i + 1) (floatUpdate a b (x, y)).1
        (floatUpdate a b (x, y)).2 (by rw [hnext])
      refine ⟨by omega, by omega, ?_, ?_⟩
      · intro k hk1 hk2
        by_cases hk : k = i + 1
        · subst hk; exact hesc
        · exact h3 k (by omega) hk2
      · intro hlt
        exact h4 (by omega)

theorem escapeCount_spec (nb_iter : Nat) (a b : ℚ) :
    escapeCount nb_iter a b ≤ nb_iter ∧
    (∀ k, 1 ≤ k → k ≤ escapeCount nb_iter a b → ¬ floatEscaped (floatOrbit a b k)) ∧
    (escapeCount nb_iter a b < nb_iter →
      floatEscaped (floatOrbit a b (escapeCount nb_iter a b + 1))) := by
  obtain ⟨_, h2, h3, h4⟩ := whileLoop_spec a b nb_iter 0 0 0 (floatOrbit_zero a b)
  rw [Nat.zero_add] at h2 h4
  exact ⟨h2, fun k hk1 hk2 => h3 k (by omega) hk2, h4⟩

/-- The loop runs to the bound exactly when none of the first `nb_iter` iterates passes the
divergence test. -/
theorem escapeCount_eq_iff (nb_iter : Nat) (a b : ℚ) :
    escapeCount nb_iter a b = nb_iter ↔
      ∀ k, 1 ≤ k → k ≤ nb_iter → ¬ floatEscaped (floatOrbit a b k) := by
  obtain ⟨h1, h2, h3⟩ := escapeCount_spec nb_iter a b
  constructor
  · intro heq k hk1 hk2
    exact h2 k hk1 (by omega)
  · intro hall
    by_contra hne
    have hlt : escapeCount nb_iter a b < nb_iter := by omega
    exact hall _ (by omega) (by omega) (h3 hlt)

theorem orbit_zero (a b : ℚ) : orbit a b 0 = (0, 0) := rfl

theorem orbit_succ (a b : ℚ) (k : Nat) :
    orbit a b (k + 1) =
      ((orbit a b k).1 * (orbit a b k).1 - (orbit a b k).2 * (orbit a b k).2 + a,
        2 * (orbit a b k).1 * (orbit a b k).2 + b) := rfl

/-- The count of the specification is the one its words describe: it is at most `iterMax`,
none of `z_1 .. z_i` has `|z|² > 4`, and if `i < iterMax` then `z_{i+1}` has `|z|² > 4`. -/
theorem exactCountFrom_spec (a b : ℚ) (left : Nat) :
    ∀ i : Nat,
      i ≤ exactCountFrom a b left i ∧
      exactCountFrom a b left i ≤ i + left ∧
      (∀ k, i < k → k ≤ exactCountFrom a b left i → ¬ escaped (orbit a b k)) ∧
      (exactCountFrom a b left i < i + left →
        escaped (orbit a b (exactCountFrom a b left i + 1))) := by
  induction left with
  | zero =>
    intro i
    refine ⟨le_refl _, le_refl _, ?_, ?_⟩
    · intro k h1 h2
      have : exactCountFrom a b 0 i = i := rfl
      omega
    · intro h
      have : exactCountFrom a b 0 i = i := rfl
      omega
  | succ left ih =>
    intro i
    have hstep : exactCountFrom a b (left + 1) i =
        if escaped (orbit a b (i + 1)) then i else exactCountFrom a b left (i + 1) := rfl
    rw [hstep]
    by_cases hesc : escaped (orbit a b (i + 1))
    · rw [if_pos hesc]
      refine ⟨le_refl _, by omega, ?_, ?_⟩
      · intro k h1 h2; omega
      · intro _; exact hesc
    · rw [if_neg hesc]
      obtain ⟨h1, h2, h3, h4⟩ := ih (i + 1)
      refine ⟨by omega, by omega, ?_, ?_⟩
      · intro k hk1 hk2
        by_cases hk : k = i + 1
        · subst hk; exact hesc
        · exact h3 k (by omega) hk2
      · intro hlt
        exact h4 (by omega)

/-! ## The intensity mapping: lemmas -/

theorem intensity_eq_div (nb_iter i : Nat) :
    intensity nb_iter i = (i * 255 / nb_iter) % 256 := by
  unfold intensity toChar
  have hq : (i : ℚ) / (nb_iter : ℚ) * 255 = ((i * 255 : ℕ) : ℚ) / (nb_iter : ℚ) := by
    push_cast; ring
  have hnn : (0 : ℚ) ≤ (i : ℚ) / (nb_iter : ℚ) * 255 := by positivity
  rw [if_pos hnn, hq, Rat.floor_natCast_div_natCast]
  omega

theorem intensity_of_le (nb_iter i : Nat) (hi : i ≤ nb_iter) :
    intensity nb_iter i = i * 255 / nb_iter := by
  rw [intensity_eq_div]
  apply Nat.mod_eq_of_lt
  have : i * 255 / nb_iter ≤ 255 := by
    apply Nat.div_le_of_le_mul
    nlinarith
  omega


theorem floatUpdate_origin (a b : ℚ) : floatUpdate a b (0, 0) = (fl a, fl b) := by
  simp [floatUpdate, fl_zero]

theorem whileLoop_origin (left i : Nat) : whileLoop 0 0 left i 0 0 = i + left := by
  induction left generalizing i with
  | zero => rfl
  | succ left ih =>
    rw [whileLoop_succ, floatUpdate_origin, fl_zero]
    have h : ¬ (fl (fl ((0 : ℚ) * 0) + fl ((0 : ℚ) * 0)) > 4) := by
      simp [fl_zero]
    rw [if_neg h, ih]
    omega

theorem intensity_mono (nb_iter i j : Nat) (hij : i ≤ j) (hj : j ≤ nb_iter) :
    intensity nb_iter i ≤ intensity nb_iter j := by
  rw [intensity_of_le nb_iter i (le_trans hij hj), intensity_of_le nb_iter j hj]
  exact Nat.div_le_div_right (Nat.mul_le_mul_right 255 hij)

theorem intensity_full (nb_iter : Nat) (hn : 1 ≤ nb_iter) : intensity nb_iter nb_iter = 255 := by
  rw [intensity_of_le nb_iter nb_iter (le_refl _)]
  exact Nat.mul_div_cancel_left 255 (by omega)

theorem intensity_lt_full (nb_iter i : Nat) (hi : i < nb_iter) : intensity nb_iter i ≤ 254 := by
  rw [intensity_of_le nb_iter i (le_of_lt hi)]
  have h : i * 255 / nb_iter < 255 := by
    apply Nat.div_lt_of_lt_mul
    nlinarith
  omega

/-! ### The point `c = 2 + 2^-30 i` -/

theorem fl_two : fl 2 = 2 := by
  have h := fl_of_scaled 1 1 (by norm_num) (by norm_num)
  simpa using h

theorem fl_four : fl 4 = 4 := by
  have h := fl_of_scaled 1 2 (by norm_num) (by norm_num)
  norm_num at h
  exact h

theorem fl_grazing_b : fl (1 / 2 ^ 30) = 1 / 2 ^ 30 := by
  have h := fl_of_scaled 1 (-30) (by norm_num) (by norm_num)
  norm_num at h
  norm_num
  exact h

theorem fl_grazing_bb : fl (1 / 2 ^ 30 * (1 / 2 ^ 30)) = 1 / 2 ^ 60 := by
  have h := fl_of_scaled 1 (-60) (by norm_num) (by norm_num)
  norm_num at h
  norm_num
  exact h

/-- The sum `4 + 2^-60` is not a `double`: it rounds to `4`. -/
theorem fl_grazing_sum : fl (4 + 1 / 2 ^ 60) = 4 := by
  rw [fl_eval (4 + 1 / 2 ^ 60) 2 (2 ^ 52) (by norm_num) (by norm_num [abs_of_pos])
    (by norm_num [abs_of_pos])
    (roundEven_of_lt _ _ (by norm_num) (by norm_num))]
  norm_num

/-- The difference `4 - 2^-60` is not a `double`: it rounds to `4`. -/
theorem fl_grazing_diff : fl (4 - 1 / 2 ^ 60) = 4 := by
  rw [fl_eval (4 - 1 / 2 ^ 60) 1 (9007199254740991 + 1) (by norm_num)
    (by norm_num [abs_of_pos]) (by norm_num [abs_of_pos])
    (roundEven_of_gt _ 9007199254740991 (by norm_num) (by norm_num))]
  norm_num

/-- The sum `36 + 25 * 2^-60` is not a `double`: it rounds to `36`. -/
theorem fl_grazing_sum2 : fl (36 + 25 / 2 ^ 60) = 36 := by
  rw [fl_eval (36 + 25 / 2 ^ 60) 5 5066549580791808 (by norm_num)
    (by norm_num [abs_of_pos]) (by norm_num [abs_of_pos])
    (roundEven_of_lt _ 5066549580791808 (by norm_num) (by norm_num))]
  norm_num

theorem fl_six : fl 6 = 6 := by
  have h := fl_of_scaled 6 0 (by norm_num) (by norm_num)
  simpa using h

theorem fl_thirty_six : fl 36 = 36 := by
  have h := fl_of_scaled 36 0 (by norm_num) (by norm_num)
  simpa using h

theorem fl_grazing_4b : fl (1 / 2 ^ 28) = 1 / 2 ^ 28 := by
  have h := fl_of_scaled 1 (-28) (by norm_num) (by norm_num)
  norm_num at h
  norm_num
  exact h

theorem fl_grazing_5b : fl (5 / 2 ^ 30) = 5 / 2 ^ 30 := by
  have h := fl_of_scaled 5 (-30) (by norm_num) (by norm_num)
  norm_num at h
  norm_num
  exact h

theorem fl_grazing_25bb : fl (25 / 2 ^ 60) = 25 / 2 ^ 60 := by
  have h := fl_of_scaled 25 (-60) (by norm_num) (by norm_num)
  norm_num at h
  norm_num
  exact h

/-- First update at `c = 2 + 2^-30 i`: the iterate is `c`, and the test value `4 + 2^-60` is
rounded to `4`, which is not greater than `4`. -/
theorem grazing_first_test :
    fl (fl ((2 : ℚ) * 2) + fl ((1 : ℚ) / 2 ^ 30 * (1 / 2 ^ 30))) = 4 := by
  rw [fl_grazing_bb]
  have : ((2 : ℚ) * 2) = 4 := by norm_num
  rw [this, fl_four, fl_grazing_sum]

/-- Second update at `c = 2 + 2^-30 i`: the iterate is `(6, 5 * 2^-30)`. -/
theorem grazing_second_update :
    floatUpdate 2 (1 / 2 ^ 30) (2, 1 / 2 ^ 30) = (6, 5 / 2 ^ 30) := by
  unfold floatUpdate
  simp only
  have e1 : ((2 : ℚ) * 2) = 4 := by norm_num
  have e2 : (4 : ℚ) - 1 / 2 ^ 60 = 4 - 1 / 2 ^ 60 := rfl
  have e3 : (4 : ℚ) + 2 = 6 := by norm_num
  have e4 : (4 : ℚ) * (1 / 2 ^ 30) = 1 / 2 ^ 28 := by norm_num
  have e5 : (1 : ℚ) / 2 ^ 28 + 1 / 2 ^ 30 = 5 / 2 ^ 30 := by norm_num
  rw [e1, fl_four, fl_grazing_bb, fl_grazing_diff, e3, fl_six, e4, fl_grazing_4b, e5,
    fl_grazing_5b]

theorem grazing_second_test :
    fl (fl ((6 : ℚ) * 6) + fl ((5 : ℚ) / 2 ^ 30 * (5 / 2 ^ 30))) = 36 := by
  have e1 : ((6 : ℚ) * 6) = 36 := by norm_num
  have e2 : (5 : ℚ) / 2 ^ 30 * (5 / 2 ^ 30) = 25 / 2 ^ 60 := by norm_num
  rw [e1, e2, fl_thirty_six, fl_grazing_25bb, fl_grazing_sum2]

/-- At `c = 2 + 2^-30 i` the loop of the program ends with `i = 1` for every `nb_iter ≥ 1`: the
first test value `4 + 2^-60` is rounded to `4`, which is not greater than `4`, and the second
iterate passes the test. -/
theorem escapeCount_grazing_all (nb_iter : Nat) (hn : 1 ≤ nb_iter) :
    escapeCount nb_iter 2 (1 / 2 ^ 30) = 1 := by
  obtain ⟨n, rfl⟩ : ∃ n, nb_iter = n + 1 := ⟨nb_iter - 1, by omega⟩
  unfold escapeCount
  rw [whileLoop_succ, floatUpdate_origin, fl_two, fl_grazing_b]
  simp only [grazing_first_test]
  rw [if_neg (by norm_num)]
  cases n with
  | zero => rfl
  | succ n =>
    rw [whileLoop_succ, grazing_second_update]
    simp only [grazing_second_test]
    rw [if_pos (by norm_num)]

/-- The case `nb_iter = 1`. -/
theorem escapeCount_grazing : escapeCount 1 2 (1 / 2 ^ 30) = 1 :=
  escapeCount_grazing_all 1 (le_refl 1)

/-- In exact arithmetic the first iterate at `c = 2 + 2^-30 i` has `|z|² = 4 + 2^-60 > 4`. -/
theorem escaped_grazing : escaped (orbit 2 (1 / 2 ^ 30) 1) := by
  unfold escaped
  rw [orbit_succ, orbit_zero]
  norm_num

/-! ## Claims about the kernel -/

/-- C7 as stated fails: at `c = 2 + 2^-30 i` with `nb_iter = 100` (and with `nb_iter = 1`) the
loop ends with `i = 1`, although the first iterate `z_1 = c` has `|z_1|² = 4 + 2^-60 > 4`; the
count of the specification there is `0`. -/
theorem C7_exact_orbit_refuted :
    escapeCount 100 2 (1 / 2 ^ 30) = 1 ∧
    escapeCount 1 2 (1 / 2 ^ 30) = 1 ∧
    exactCount 100 2 (1 / 2 ^ 30) = 0 ∧
    escaped (orbit 2 (1 / 2 ^ 30) 1) ∧
    ¬ (∀ k, 1 ≤ k → k ≤ escapeCount 100 2 (1 / 2 ^ 30) →
      ¬ escaped (orbit 2 (1 / 2 ^ 30) k)) := by
  have h100 := escapeCount_grazing_all 100 (by decide)
  refine ⟨h100, escapeCount_grazing, ?_, escaped_grazing, ?_⟩
  · unfold exactCount
    rw [exactCountFrom, if_pos escaped_grazing]
  · intro h
    exact h 1 (le_refl 1) (by rw [h100]) escaped_grazing

/-- C7, amended: for every point `(a, b)` and every `nb_iter` the escape-time loop of
`Compute` ends with a count `i ≤ nb_iter`; none of the iterates `1 .. i`, as the program
computes them in `double` arithmetic, passes the test `x * x + y * y > 4` as the program
evaluates it; if `i < nb_iter` then iterate `i + 1` passes it (so `i` updates were
completed before the first one whose result passes the test); and `i = nb_iter` exactly
when none of the iterates `1 .. nb_iter` passes the test. -/
theorem C7_double_escape_time_count (a b : ℚ) (nb_iter : Nat) :
    escapeCount nb_iter a b ≤ nb_iter ∧
    (∀ k, 1 ≤ k → k ≤ escapeCount nb_iter a b → ¬ floatEscaped (floatOrbit a b k)) ∧
    (escapeCount nb_iter a b < nb_iter →
      floatEscaped (floatOrbit a b (escapeCount nb_iter a b + 1))) ∧
    (escapeCount nb_iter a b = nb_iter ↔
      ∀ k, 1 ≤ k → k ≤ nb_iter → ¬ floatEscaped (floatOrbit a b k)) := by
  obtain ⟨h1, h2, h3⟩ := escapeCount_spec nb_iter a b
  exact ⟨h1, h2, h3, escapeCount_eq_iff nb_iter a b⟩

/-- Witness for the amended C7 at `c = 2 + 2^-30 i`, `nb_iter = 1`: the count is `1`. -/
theorem C7_double_escape_time_count_witness :
    escapeCount 1 2 (1 / 2 ^ 30) = 1 ∧
    (escapeCount 1 2 (1 / 2 ^ 30) ≤ 1 ∧
    (∀ k, 1 ≤ k → k ≤ escapeCount 1 2 (1 / 2 ^ 30) →
      ¬ floatEscaped (floatOrbit 2 (1 / 2 ^ 30) k)) ∧
    (escapeCount 1 2 (1 / 2 ^ 30) < 1 →
      floatEscaped (floatOrbit 2 (1 / 2 ^ 30) (escapeCount 1 2 (1 / 2 ^ 30) + 1))) ∧
    (escapeCount 1 2 (1 / 2 ^ 30) = 1 ↔
      ∀ k, 1 ≤ k → k ≤ 1 → ¬ floatEscaped (floatOrbit 2 (1 / 2 ^ 30) k))) :=
  ⟨escapeCount_grazing, C7_double_escape_time_count 2 (1 / 2 ^ 30) 1⟩

/-- C9 as stated fails: `c = 2 + 2^-30 i` has `a² + b² = 4 + 2^-60 > 4`, yet for every
`nb_iter ≥ 1` the loop returns `1`, not `0`. -/
theorem C9_exact_radius_refuted :
    (2 : ℚ) * 2 + 1 / 2 ^ 30 * (1 / 2 ^ 30) > 4 ∧
    (∀ nb_iter : Nat, 1 ≤ nb_iter → escapeCount nb_iter 2 (1 / 2 ^ 30) = 1) ∧
    ¬ (∀ (nb_iter : Nat) (a b : ℚ), 1 ≤ nb_iter → a * a + b * b > 4 →
      escapeCount nb_iter a b = 0) := by
  have h1 : (2 : ℚ) * 2 + 1 / 2 ^ 30 * (1 / 2 ^ 30) > 4 := by norm_num
  refine ⟨h1, escapeCount_grazing_all, ?_⟩
  intro h
  have h0 := h 1 2 (1 / 2 ^ 30) (le_refl 1) h1
  rw [escapeCount_grazing] at h0
  omega

/-- C9, amended: for `c = 0` and every `nb_iter ≥ 1` the escape-time loop returns exactly
`nb_iter`, and for every `c = a + b i` with `a`, `b` doubles whose `a * a + b * b`, as the
program evaluates it (both products and the sum rounded to `double`), is greater than `4`,
it returns `0`. -/
theorem C9_double_kernel_boundary (nb_iter : Nat) (hn : 1 ≤ nb_iter) :
    escapeCount nb_iter 0 0 = nb_iter ∧
    ∀ a b : ℚ, fl a = a → fl b = b → fl (fl (a * a) + fl (b * b)) > 4 →
      escapeCount nb_iter a b = 0 := by
  constructor
  · unfold escapeCount
    rw [whileLoop_origin]
    omega
  · intro a b ha hb hab
    obtain ⟨n, rfl⟩ : ∃ n, nb_iter = n + 1 := ⟨nb_iter - 1, by omega⟩
    unfold escapeCount
    rw [whileLoop_succ, floatUpdate_origin, ha, hb]
    simp only
    rw [if_pos hab]

/-- Witness for the amended C9 at `nb_iter = 100` and `c = 3`. -/
theorem C9_double_kernel_boundary_witness :
    escapeCount 100 0 0 = 100 ∧ escapeCount 100 3 0 = 0 := by
  have h3 : fl 3 = 3 := by
    have h := fl_of_scaled 3 0 (by norm_num) (by norm_num)
    simpa using h
  have h9 : fl 9 = 9 := by
    have h := fl_of_scaled 9 0 (by norm_num) (by norm_num)
    simpa using h
  refine ⟨(C9_double_kernel_boundary 100 (by decide)).1,
    (C9_double_kernel_boundary 100 (by decide)).2 3 0 h3 fl_zero ?_⟩
  have e : ((3 : ℚ) * 3) = 9 := by norm_num
  rw [e, h9, mul_zero, fl_zero, add_zero, h9]
  norm_num

/-- C10 as stated fails: at `c = 2 + 2^-30 i` with `nb_iter = 1` the byte `Compute` stores is
`255`, although the iterate `z_1` has `|z_1|² > 4`. -/
theorem C10_exact_orbit_refuted :
    pixelValue 1 2 (1 / 2 ^ 30) = 255 ∧
    escaped (orbit 2 (1 / 2 ^ 30) 1) ∧
    ¬ (pixelValue 1 2 (1 / 2 ^ 30) = 255 ↔
      ∀ k, 1 ≤ k → k ≤ 1 → ¬ escaped (orbit 2 (1 / 2 ^ 30) k)) := by
  have h1 : pixelValue 1 2 (1 / 2 ^ 30) = 255 := by
    unfold pixelValue
    rw [escapeCount_grazing]
    exact intensity_full 1 (le_refl 1)
  refine ⟨h1, escaped_grazing, ?_⟩
  intro h
  exact h.mp h1 1 (le_refl 1) (le_refl 1) escaped_grazing

/-- C10, amended: for every `nb_iter ≥ 1` and every point `(a, b)`, the byte `Compute` stores
is `255` if and only if the escape-time count of the loop equals `nb_iter`, which holds if
and only if none of the iterates `1 .. nb_iter`, as the program computes them in `double`
arithmetic, passes the test `x * x + y * y > 4` as the program evaluates it; every count
`i < nb_iter` is stored as a byte `≤ 254`; and the stored byte is non-decreasing in the
count. -/
theorem C10_double_max_intensity (nb_iter : Nat) (hn : 1 ≤ nb_iter) (a b : ℚ) :
    (pixelValue nb_iter a b = 255 ↔ escapeCount nb_iter a b = nb_iter) ∧
    (pixelValue nb_iter a b = 255 ↔
      ∀ k, 1 ≤ k → k ≤ nb_iter → ¬ floatEscaped (floatOrbit a b k)) ∧
    (∀ i, i < nb_iter → intensity nb_iter i ≤ 254) ∧
    (∀ i j, i ≤ j → j ≤ nb_iter → intensity nb_iter i ≤ intensity nb_iter j) := by
  have hle := (escapeCount_spec nb_iter a b).1
  have key : pixelValue nb_iter a b = 255 ↔ escapeCount nb_iter a b = nb_iter := by
    unfold pixelValue
    constructor
    · intro h
      by_contra hne
      have := intensity_lt_full nb_iter (escapeCount nb_iter a b) (by omega)
      omega
    · intro h
      rw [h]; exact intensity_full nb_iter hn
  refine ⟨key, ?_, fun i hi => intensity_lt_full nb_iter i hi,
    fun i j hij hj => intensity_mono nb_iter i j hij hj⟩
  rw [key]
  exact escapeCount_eq_iff nb_iter a b

/-- Witness for the amended C10 at `nb_iter = 100`, `c = 0`. -/
theorem C10_double_max_intensity_witness :
    (pixelValue 100 0 0 = 255 ↔ escapeCount 100 0 0 = 100) ∧
    (pixelValue 100 0 0 = 255 ↔
      ∀ k, 1 ≤ k → k ≤ 100 → ¬ floatEscaped (floatOrbit 0 0 k)) ∧
    (∀ i, i < 100 → intensity 100 i ≤ 254) ∧
    (∀ i j, i ≤ j → j ≤ 100 → intensity 100 i ≤ intensity 100 j) :=
  C10_double_max_intensity 100 (by decide) 0 0

/-- C8 as stated fails: for `i = 1`, `nb_iter = 100` the value `1 / 100 × 255 = 2.55` rounds to
`3`, but the byte stored by line 116 is `2`. -/
theorem C8_rounding_refuted :
    intensity 100 1 = 2 ∧ roundedIntensity 100 1 = 3 ∧
    ¬ (∀ nb_iter i : Nat, 1 ≤ nb_iter → i ≤ nb_iter →
        (intensity nb_iter i : ℤ) = roundedIntensity nb_iter i) := by
  have h1 : intensity 100 1 = 2 := by
    rw [intensity_of_le 100 1 (by decide)]
  have h2 : roundedIntensity 100 1 = 3 := by
    unfold roundedIntensity
    have : round ((1 : ℕ) / (100 : ℕ) * 255 : ℚ) = 3 := by
      rw [round_eq, Int.floor_eq_iff]
      norm_num
    rw [this]; decide
  refine ⟨h1, h2, ?_⟩
  intro hall
  have := hall 100 1 (by decide) (by decide)
  rw [h1, h2] at this
  omega

/-- C8, amended: for every `nb_iter ≥ 1` and every count `i ≤ nb_iter` the byte stored is the
integer part of `i / nb_iter × 255` (truncation, not rounding to nearest), that is
`(i * 255) div nb_iter`; it lies in `[0, 255]`, so no clamping takes place. -/
theorem C8_intensity_truncates (nb_iter i : Nat) (_hn : 1 ≤ nb_iter) (hi : i ≤ nb_iter) :
    (intensity nb_iter i : ℤ) = ⌊(i : ℚ) / (nb_iter : ℚ) * 255⌋ ∧
    intensity nb_iter i = i * 255 / nb_iter ∧
    intensity nb_iter i ≤ 255 := by
  have hq : (i : ℚ) / (nb_iter : ℚ) * 255 = ((i * 255 : ℕ) : ℚ) / (nb_iter : ℚ) := by
    push_cast; ring
  have h2 := intensity_of_le nb_iter i hi
  refine ⟨?_, h2, ?_⟩
  · rw [hq, Rat.floor_natCast_div_natCast, h2]
    norm_cast
  · rw [h2]
    apply Nat.div_le_of_le_mul
    nlinarith

/-- Witness for the amended C8 at `i = 1`, `nb_iter = 100`: the stored byte is `2`. -/
theorem C8_intensity_truncates_witness :
    (intensity 100 1 : ℤ) = ⌊((1 : ℕ) : ℚ) / ((100 : ℕ) : ℚ) * 255⌋ ∧
    intensity 100 1 = 1 * 255 / 100 ∧
    intensity 100 1 ≤ 255 :=
  C8_intensity_truncates 100 1 (by decide) (by decide)

/-! ## Memory lemmas -/

theorem setPixel_same (p : Bytes) (pos v : Nat) : setPixel p pos v pos = v := by
  simp [setPixel]

theorem setPixel_other (p : Bytes) (pos v j : Nat) (h : j ≠ pos) : setPixel p pos v j = p j := by
  simp [setPixel, h]

/-- A loop that stores `g i` at `base + i` for `i = 0 .. n-1`. -/
theorem foldl_setPixel_range (g : Nat → Nat) (base n : Nat) (p : Bytes) (j : Nat) :
    (List.range n).foldl (fun q i => setPixel q (base + i) (g i)) p j =
      if base ≤ j ∧ j < base + n then g (j - base) else p j := by
  induction n with
  | zero =>
    have : ¬ (base ≤ j ∧ j < base + 0) := by omega
    rw [if_neg this]; rfl
  | succ n ih =>
    rw [List.range_succ, List.foldl_append, List.foldl_cons, List.foldl_nil]
    by_cases hj : j = base + n
    · subst hj
      rw [setPixel_same]
      have : base ≤ base + n ∧ base + n < base + (n + 1) := by omega
      rw [if_pos this]
      congr 1; omega
    · rw [setPixel_other _ _ _ _ hj, ih]
      by_cases h1 : base ≤ j ∧ j < base + n
      · have h2 : base ≤ j ∧ j < base + (n + 1) := by omega
        rw [if_pos h1, if_pos h2]
      · have h2 : ¬ (base ≤ j ∧ j < base + (n + 1)) := by omega
        rw [if_neg h1, if_neg h2]

theorem storeBytes_apply (bs : List Nat) :
    ∀ (p : Bytes) (l j : Nat),
      storeBytes p l bs j = if l ≤ j ∧ j < l + bs.length then bs.getD (j - l) 0 else p j := by
  induction bs with
  | nil =>
    intro p l j
    have : ¬ (l ≤ j ∧ j < l + ([] : List Nat).length) := by simp
    rw [if_neg this]; rfl
  | cons v vs ih =>
    intro p l j
    show storeBytes (setPixel p l v) (l + 1) vs j = _
    rw [ih]
    by_cases hj : j = l
    · subst hj
      have h1 : ¬ (j + 1 ≤ j ∧ j < j + 1 + vs.length) := by omega
      have h2 : j ≤ j ∧ j < j + (v :: vs).length := by simp
      rw [if_neg h1, if_pos h2, setPixel_same]
      simp
    · by_cases h1 : l + 1 ≤ j ∧ j < l + 1 + vs.length
      · have h2 : l ≤ j ∧ j < l + (v :: vs).length := by
          simp only [List.length_cons]; omega
        rw [if_pos h1, if_pos h2]
        obtain ⟨d, rfl⟩ : ∃ d, j = l + 1 + d := ⟨j - (l + 1), by omega⟩
        have e1 : l + 1 + d - (l + 1) = d := by omega
        have e2 : l + 1 + d - l = d + 1 := by omega
        rw [e1, e2]
        simp
      · have h2 : ¬ (l ≤ j ∧ j < l + (v :: vs).length) := by
          simp only [List.length_cons]; omega
        rw [if_neg h1, if_neg h2, setPixel_other _ _ _ _ hj]

theorem sendBuffer_length (buf : Bytes) (count : Nat) : (sendBuffer buf count).length = count := by
  simp [sendBuffer]

theorem sendBuffer_getD (buf : Bytes) (count i : Nat) (h : i < count) :
    (sendBuffer buf count).getD i 0 = buf i := by
  simp [sendBuffer, List.getD_eq_getElem?_getD, h]

/-- Every message of the program has exactly `pvt_area + 1` bytes. -/
theorem message_length (cfg : Config) (size : Nat) (heapLoc : Nat → Nat → Bytes) (rank k : Nat) :
    (message cfg size heapLoc rank k).length = pvt_area cfg + 1 :=
  sendBuffer_length _ _

/-! ## `Compute`: what it stores -/

theorem columnLoop_eq (nb_iter : Nat) (x_min y_max dx dy : ℚ) (l n : Nat) (p : Bytes) (pos : Nat) :
    (List.range n).foldl (columnBody nb_iter x_min y_max dx dy l) (p, pos) =
      ((List.range n).foldl (fun q c => setPixel q (pos + c)
          (pixelValue nb_iter (fl (x_min + fl ((c : ℚ) * dx)))
            (fl (y_max - fl ((l : ℚ) * dy))))) p, pos + n) := by
  induction n with
  | zero => rfl
  | succ n ih =>
    rw [List.range_succ, List.foldl_append, List.foldl_append, ih]
    rfl

/-- State of the loops of `Compute` after `m` complete rows. -/
theorem rowLoop_eq (nb_iter cols : Nat) (x_min y_max dx dy : ℚ) (m : Nat) (p : Bytes) :
    ∃ q : Bytes,
      (List.range m).foldl (rowBody nb_iter cols x_min y_max dx dy) (p, 0) = (q, m * cols) ∧
      ∀ j, q j = if j < m * cols then
          pixelValue nb_iter (fl (x_min + fl (((j % cols : Nat) : ℚ) * dx)))
            (fl (y_max - fl (((j / cols : Nat) : ℚ) * dy)))
        else p j := by
  induction m with
  | zero =>
    refine ⟨p, by rw [Nat.zero_mul]; rfl, ?_⟩
    intro j
    simp
  | succ m ih =>
    obtain ⟨q, hq, hval⟩ := ih
    rw [List.range_succ, List.foldl_append, hq, List.foldl_cons, List.foldl_nil]
    unfold rowBody
    rw [columnLoop_eq]
    refine ⟨_, by rw [Nat.succ_mul], ?_⟩
    intro j
    rw [foldl_setPixel_range]
    by_cases h1 : m * cols ≤ j ∧ j < m * cols + cols
    · have h2 : j < (m + 1) * cols := by rw [Nat.succ_mul]; omega
      rw [if_pos h1, if_pos h2]
      have hc : 0 < cols := by omega
      have hdiv : j / cols = m := by
        apply Nat.div_eq_of_lt_le
        · exact h1.1
        · rw [Nat.succ_mul]; omega
      have hmod : j % cols = j - m * cols := by
        have := Nat.div_add_mod j cols
        rw [hdiv, Nat.mul_comm] at this
        omega
      rw [hdiv, hmod]
    · rw [if_neg h1, hval]
      by_cases h3 : j < m * cols
      · have h2 : j < (m + 1) * cols := by rw [Nat.succ_mul]; omega
        rw [if_pos h3, if_pos h2]
      · have h2 : ¬ j < (m + 1) * cols := by rw [Nat.succ_mul]; omega
        rw [if_neg h3, if_neg h2]

/-- The pixel memory after `Compute`: index `j` inside the image holds the byte of the point of
row `j / nb_columns`, column `j % nb_columns`, with the coordinates rounded as the program
rounds them; the memory past the image is unchanged. -/
theorem Compute_pixels (im : Image) (nb_iter : Nat) (x_min x_max y_min y_max : ℚ) (j : Nat) :
    (Compute im nb_iter x_min x_max y_min y_max).pixels j =
      if j < im.nb_rows * im.nb_columns then
        pixelValue nb_iter
          (fl (x_min + fl (((j % im.nb_columns : Nat) : ℚ) *
            fl (fl (x_max - x_min) / (im.nb_columns : ℚ)))))
          (fl (y_max - fl (((j / im.nb_columns : Nat) : ℚ) *
            fl (fl (y_max - y_min) / (im.nb_rows : ℚ)))))
      else im.pixels j := by
  obtain ⟨q, hq, hval⟩ := rowLoop_eq nb_iter im.nb_columns x_min y_max
    (fl (fl (x_max - x_min) / (im.nb_columns : ℚ))) (fl (fl (y_max - y_min) / (im.nb_rows : ℚ)))
    im.nb_rows im.pixels
  unfold Compute
  simp only [hq]
  exact hval j

/-- The row computed by rank `rank` in round `k` is row `k * size + rank` of the image. -/
theorem localRow_pixels (cfg : Config) (size : Nat) (heapLoc : Nat → Nat → Bytes)
    (rank k c : Nat) (hc : c < cfg.width) :
    (localRow cfg size heapLoc rank k).pixels c = expectedPixel cfg (globalRow size k rank) c := by
  unfold localRow
  rw [Compute_pixels]
  simp only [initialization, ht_pvt, Nat.one_mul]
  rw [if_pos hc, Nat.mod_eq_of_lt hc, Nat.div_eq_of_lt hc]
  unfold expectedPixel columnCoord rowCoord globalRow
  congr 1
  rw [Nat.cast_zero, zero_mul, fl_zero, sub_zero, fl_idem]
  congr 3
  rw [Nat.add_comm, Nat.mul_comm]

/-- The byte past the row buffer is not touched by `Compute`. -/
theorem localRow_past (cfg : Config) (size : Nat) (heapLoc : Nat → Nat → Bytes)
    (rank k j : Nat) (hj : cfg.width ≤ j) :
    (localRow cfg size heapLoc rank k).pixels j = heapLoc rank k j := by
  unfold localRow
  rw [Compute_pixels]
  simp only [initialization, ht_pvt, Nat.one_mul]
  rw [if_neg (by omega)]

/-! ## The round loop on rank 0: pixels -/

theorem pvt_area_eq (cfg : Config) : pvt_area cfg = cfg.width := by
  simp [pvt_area, ht_pvt]

theorem foldl_store_pixels (f g : Nat → Nat) (l : List Nat) :
    ∀ st : Proc, (l.foldl (fun s i => store s (f i) (g i)) st).pixels =
      l.foldl (fun q i => setPixel q (f i) (g i)) st.pixels := by
  induction l with
  | nil => intro st; rfl
  | cons i l ih =>
    intro st
    rw [List.foldl_cons, List.foldl_cons, ih]
    rfl

theorem copyRow_pixels (cfg : Config) (size k : Nat) (imloc : Image) (st : Proc) (j : Nat) :
    (copyRow cfg size k imloc st).pixels j =
      if k * size * cfg.width ≤ j ∧ j < k * size * cfg.width + cfg.width then
        imloc.pixels (j - k * size * cfg.width)
      else st.pixels j := by
  unfold copyRow
  rw [foldl_store_pixels (fun i => k * size * pvt_area cfg + i) imloc.pixels, pvt_area_eq]
  exact foldl_setPixel_range imloc.pixels (k * size * cfg.width) cfg.width st.pixels j

/-- The receive of the message of rank `r`, round `k`: the `width` bytes of row
`k * size + r` are stored, and one more byte, the one after the sender's row buffer, is
stored at the first index after the row. -/
theorem recvRow_pixels (cfg : Config) (size k : Nat) (heapLoc : Nat → Nat → Bytes) (st : Proc)
    (r j : Nat) :
    (recvRow cfg size k st r (message cfg size heapLoc r k)).pixels j =
      if globalRow size k r * cfg.width ≤ j ∧ j < globalRow size k r * cfg.width + cfg.width
      then expectedPixel cfg (globalRow size k r) (j - globalRow size k r * cfg.width)
      else if j = globalRow size k r * cfg.width + cfg.width then heapLoc r k cfg.width
      else st.pixels j := by
  unfold recvRow MPI_Recv
  simp only
  have hlen := message_length cfg size heapLoc r k
  rw [List.take_of_length_le (le_of_eq hlen), storeBytes_apply, hlen, pvt_area_eq]
  by_cases h1 : globalRow size k r * cfg.width ≤ j ∧
      j < globalRow size k r * cfg.width + cfg.width
  · have h2 : globalRow size k r * cfg.width ≤ j ∧
        j < globalRow size k r * cfg.width + (cfg.width + 1) := by omega
    rw [if_pos h1, if_pos h2]
    unfold message
    rw [sendBuffer_getD _ _ _ (by rw [pvt_area_eq]; omega)]
    exact localRow_pixels cfg size heapLoc r k _ (by omega)
  · rw [if_neg h1]
    by_cases h3 : j = globalRow size k r * cfg.width + cfg.width
    · have h2 : globalRow size k r * cfg.width ≤ j ∧
          j < globalRow size k r * cfg.width + (cfg.width + 1) := by omega
      rw [if_pos h2, if_pos h3]
      unfold message
      rw [sendBuffer_getD _ _ _ (by rw [pvt_area_eq]; omega)]
      have e : j - globalRow size k r * cfg.width = cfg.width := by omega
      rw [e]
      exact localRow_past cfg size heapLoc r k _ (le_refl _)
    · have h2 : ¬ (globalRow size k r * cfg.width ≤ j ∧
          j < globalRow size k r * cfg.width + (cfg.width + 1)) := by omega
      rw [if_neg h2, if_neg h3]

theorem row_index_lt (r n w c : Nat) (hr : r < n) (hc : c < w) : r * w + c < n * w := by
  have h : (r + 1) * w ≤ n * w := Nat.mul_le_mul_right w hr
  rw [Nat.succ_mul] at h
  omega

theorem roundBody_zero (cfg : Config) (size : Nat) (heapLoc : Nat → Nat → Bytes) (st : Proc)
    (k : Nat) :
    roundBody cfg size 0 heapLoc st k =
      (List.range' 1 (size - 1)).foldl
        (fun s r => recvRow cfg size k s r (message cfg size heapLoc r k))
        (copyRow cfg size k (localRow cfg size heapLoc 0 k) st) := by
  simp [roundBody]

theorem rounds_succ (cfg : Config) (size : Nat) (heapIm : Bytes) (heapLoc : Nat → Nat → Bytes)
    (n : Nat) :
    rounds cfg size heapIm heapLoc (n + 1) =
      roundBody cfg size 0 heapLoc (rounds cfg size heapIm heapLoc n) n := by
  unfold rounds
  rw [List.range_succ, List.foldl_append]
  rfl

theorem mainLoop_eq_rounds (cfg : Config) (size : Nat) (heapIm : Bytes)
    (heapLoc : Nat → Nat → Bytes) :
    mainLoop cfg size 0 heapIm heapLoc = rounds cfg size heapIm heapLoc (roll cfg size) := rfl

theorem foldl_store_trace (f g : Nat → Nat) (l : List Nat) :
    ∀ st : Proc, (l.foldl (fun s i => store s (f i) (g i)) st).trace =
      st.trace ++ l.map (fun i => Event.copy (f i)) := by
  induction l with
  | nil => intro st; simp
  | cons i l ih =>
    intro st
    rw [List.foldl_cons, ih]
    simp [store]

theorem recvRow_trace (cfg : Config) (size k : Nat) (heapLoc : Nat → Nat → Bytes) (st : Proc)
    (r : Nat) :
    (recvRow cfg size k st r (message cfg size heapLoc r k)).trace =
      st.trace ++ [Event.recv r (globalRow size k r * pvt_area cfg) (pvt_area cfg + 1)] := by
  unfold recvRow MPI_Recv
  simp only
  have hlen := message_length cfg size heapLoc r k
  rw [List.take_of_length_le (le_of_eq hlen), hlen]

theorem recvLoop_trace (cfg : Config) (size k : Nat) (heapLoc : Nat → Nat → Bytes)
    (l : List Nat) :
    ∀ st : Proc,
      (l.foldl (fun s r => recvRow cfg size k s r (message cfg size heapLoc r k)) st).trace =
        st.trace ++ l.map
          (fun r => Event.recv r (globalRow size k r * pvt_area cfg) (pvt_area cfg + 1)) := by
  induction l with
  | nil => intro st; simp
  | cons r l ih =>
    intro st
    rw [List.foldl_cons, ih, recvRow_trace]
    simp

theorem roundBody_trace (cfg : Config) (size k : Nat) (heapLoc : Nat → Nat → Bytes) (st : Proc) :
    (roundBody cfg size 0 heapLoc st k).trace = st.trace ++ roundTrace cfg size k := by
  rw [roundBody_zero, recvLoop_trace]
  unfold copyRow
  rw [foldl_store_trace (fun i => k * size * pvt_area cfg + i)]
  unfold roundTrace
  simp

/-- The trace of rank 0 after `n` rounds. -/
theorem rounds_trace (cfg : Config) (size : Nat) (heapIm : Bytes) (heapLoc : Nat → Nat → Bytes)
    (n : Nat) :
    (rounds cfg size heapIm heapLoc n).trace = (List.range n).flatMap (roundTrace cfg size) := by
  induction n with
  | zero => rfl
  | succ n ih =>
    rw [rounds_succ, roundBody_trace, ih, List.range_succ]
    simp

/-- The trace of a rank other than 0: one send per round, of the message of that round; the
process stores nothing into `im`. -/
theorem worker_rounds (cfg : Config) (size rank : Nat) (heapLoc : Nat → Nat → Bytes)
    (hrank : rank ≠ 0) (n : Nat) (st : Proc) :
    ((List.range n).foldl (roundBody cfg size rank heapLoc) st).trace =
        st.trace ++ (List.range n).map (fun k => Event.send 0 (message cfg size heapLoc rank k)) ∧
    ((List.range n).foldl (roundBody cfg size rank heapLoc) st).pixels = st.pixels := by
  induction n with
  | zero => simp
  | succ n ih =>
    rw [List.range_succ, List.foldl_append, List.foldl_cons, List.foldl_nil]
    obtain ⟨h1, h2⟩ := ih
    constructor
    · simp [roundBody, hrank, MPI_Send, h1, message]
    · simp [roundBody, hrank, MPI_Send, h2]

/-- With two or more ranks, the last receive of a round stores the byte found after the row
buffer of the last rank at the first index of the next row. -/
theorem rounds_overflow (cfg : Config) (size : Nat) (heapIm : Bytes)
    (heapLoc : Nat → Nat → Bytes) (hN : 2 ≤ size) (n : Nat) :
    (rounds cfg size heapIm heapLoc (n + 1)).pixels ((n + 1) * size * cfg.width) =
      heapLoc (size - 1) n cfg.width := by
  obtain ⟨m, hm⟩ : ∃ m, size - 1 = m + 1 := ⟨size - 2, by omega⟩
  rw [rounds_succ, roundBody_zero, hm, List.range'_concat, List.foldl_append, List.foldl_cons,
    List.foldl_nil]
  have e1 : 1 + 1 * m = size - 1 := by omega
  rw [e1, recvRow_pixels]
  have hg : globalRow size n (size - 1) + 1 = (n + 1) * size := by
    unfold globalRow; rw [Nat.succ_mul]; omega
  have hidx : (n + 1) * size * cfg.width =
      globalRow size n (size - 1) * cfg.width + cfg.width := by
    rw [← hg, Nat.succ_mul]
  rw [if_neg (by omega), if_pos hidx, hm]

/-! ## Claims about the partition and the gather -/

/-- C2: for every group size `size ≥ 1` and `height ≥ 1`, the row expression of the
y-coordinate (`rank + size * ht_wise`) and that of the buffer offset (`ht_wise * size + r`)
agree; the map `(round, rank) ↦ round * size + rank` is injective on
`[0, height / size) × [0, size)`; its image is exactly `[0, size * (height / size))`; that range
lies inside `[0, height)`; and for `height = 4`, `size = 2` rank 0 owns rows `0, 2` and rank 1
owns rows `1, 3`. -/
theorem C2_row_ownership (size height : Nat) (hN : 1 ≤ size) (_hh : 1 ≤ height) :
    (∀ k r, r + size * k = globalRow size k r) ∧
    (∀ k1 r1 k2 r2, k1 < height / size → r1 < size → k2 < height / size → r2 < size →
      globalRow size k1 r1 = globalRow size k2 r2 → k1 = k2 ∧ r1 = r2) ∧
    (∀ j, j < size * (height / size) ↔
      ∃ k r, k < height / size ∧ r < size ∧ globalRow size k r = j) ∧
    size * (height / size) ≤ height ∧
    (List.range (4 / 2)).map (fun k => globalRow 2 k 0) = [0, 2] ∧
    (List.range (4 / 2)).map (fun k => globalRow 2 k 1) = [1, 3] := by
  have hpos : 0 < size := hN
  have hdiv : ∀ k r, r < size → globalRow size k r / size = k := by
    intro k r hr
    unfold globalRow
    rw [Nat.mul_comm, Nat.mul_add_div hpos, Nat.div_eq_of_lt hr, Nat.add_zero]
  refine ⟨?_, ?_, ?_, Nat.mul_div_le height size, by decide, by decide⟩
  · intro k r
    unfold globalRow
    rw [Nat.mul_comm, Nat.add_comm]
  · intro k1 r1 k2 r2 _ hr1 _ hr2 heq
    have hk : k1 = k2 := by
      rw [← hdiv k1 r1 hr1, ← hdiv k2 r2 hr2, heq]
    subst hk
    unfold globalRow at heq
    exact ⟨rfl, by omega⟩
  · intro j
    constructor
    · intro hj
      refine ⟨j / size, j % size, ?_, Nat.mod_lt j hpos, ?_⟩
      · exact Nat.div_lt_of_lt_mul hj
      · unfold globalRow
        rw [Nat.mul_comm]
        exact Nat.div_add_mod j size
    · rintro ⟨k, r, hk, hr, rfl⟩
      unfold globalRow
      rw [Nat.mul_comm size]
      exact row_index_lt k (height / size) size r hk hr

/-- Witness for C2 at `size = 2`, `height = 5`. -/
theorem C2_row_ownership_witness :
    (∀ k r, r + 2 * k = globalRow 2 k r) ∧
    (∀ k1 r1 k2 r2, k1 < 5 / 2 → r1 < 2 → k2 < 5 / 2 → r2 < 2 →
      globalRow 2 k1 r1 = globalRow 2 k2 r2 → k1 = k2 ∧ r1 = r2) ∧
    (∀ j, j < 2 * (5 / 2) ↔ ∃ k r, k < 5 / 2 ∧ r < 2 ∧ globalRow 2 k r = j) ∧
    2 * (5 / 2) ≤ 5 ∧
    (List.range (4 / 2)).map (fun k => globalRow 2 k 0) = [0, 2] ∧
    (List.range (4 / 2)).map (fun k => globalRow 2 k 1) = [1, 3] :=
  C2_row_ownership 2 5 (by decide) (by decide)

/-- C3 fails on the code at `width = 4`, `height = 5`, two ranks: there are `5 / 2 = 2` rounds,
and the receive from rank 1 in round 1 stores five bytes at indices `12 .. 16`; index 16 is
row 4, column 0, a row past `size * (height / size) = 4`.  After the loop that byte holds the
byte found after the row buffer of rank 1, whatever the image held after allocation; with an
image allocated as zeros and a `7` after the row buffer, the byte has changed from `0` to `7`. -/
theorem C3_trailing_row_overwritten :
    roll ⟨50, -2, 2, -2, 2, 4, 5⟩ 2 = 2 ∧
    (∀ (heapIm : Bytes) (heapLoc : Nat → Nat → Bytes),
      Event.recv 1 12 5 ∈ (mainLoop ⟨50, -2, 2, -2, 2, 4, 5⟩ 2 0 heapIm heapLoc).trace ∧
      4 * 4 + 0 ∈ (mainLoop ⟨50, -2, 2, -2, 2, 4, 5⟩ 2 0 heapIm heapLoc).written ∧
      (mainLoop ⟨50, -2, 2, -2, 2, 4, 5⟩ 2 0 heapIm heapLoc).pixels (4 * 4 + 0) =
        heapLoc 1 1 4) ∧
    (mainLoop ⟨50, -2, 2, -2, 2, 4, 5⟩ 2 0 (fun _ => 0) (fun _ _ _ => 7)).pixels (4 * 4 + 0) ≠
      (initialization (fun _ => 0) 4 5).pixels (4 * 4 + 0) := by
  have hpix : ∀ (heapIm : Bytes) (heapLoc : Nat → Nat → Bytes),
      (mainLoop ⟨50, -2, 2, -2, 2, 4, 5⟩ 2 0 heapIm heapLoc).pixels (4 * 4 + 0) =
        heapLoc 1 1 4 := by
    intro heapIm heapLoc
    exact rounds_overflow ⟨50, -2, 2, -2, 2, 4, 5⟩ 2 heapIm heapLoc (le_refl 2) 1
  refine ⟨by decide, ?_, ?_⟩
  · intro heapIm heapLoc
    refine ⟨?_, ?_, hpix heapIm heapLoc⟩
    · rw [mainLoop_eq_rounds, rounds_trace]
      decide
    · unfold Proc.written
      rw [mainLoop_eq_rounds, rounds_trace]
      decide
  · rw [hpix]
    simp [initialization]

/-- C4 fails on the code at `width = 4`, `height = 4`, two ranks, round 1, rank 1: the message
has `width + 1 = 5` bytes and its last byte is read from index 4 of the local row buffer, which
is not in `[0, width)`; the matching receive stores five bytes at indices `12 .. 16`, and index
16 is not below `width * height = 16`; and index 8, the first byte of row 2, is stored to
twice (by the receive of row 1 and by the copy of row 2). -/
theorem C4_transfer_overruns :
    ∀ (heapIm : Bytes) (heapLoc : Nat → Nat → Bytes),
      (message ⟨50, -2, 2, -2, 2, 4, 4⟩ 2 heapLoc 1 1).length = 5 ∧
      (message ⟨50, -2, 2, -2, 2, 4, 4⟩ 2 heapLoc 1 1).getD 4 0 = heapLoc 1 1 4 ∧
      (mainLoop ⟨50, -2, 2, -2, 2, 4, 4⟩ 2 1 heapIm heapLoc).trace =
        [Event.send 0 (message ⟨50, -2, 2, -2, 2, 4, 4⟩ 2 heapLoc 1 0),
         Event.send 0 (message ⟨50, -2, 2, -2, 2, 4, 4⟩ 2 heapLoc 1 1)] ∧
      Event.recv 1 12 5 ∈ (mainLoop ⟨50, -2, 2, -2, 2, 4, 4⟩ 2 0 heapIm heapLoc).trace ∧
      Event.writes (Event.recv 1 12 5) = [12, 13, 14, 15, 16] ∧
      ¬ (16 < 4 * 4) ∧
      (mainLoop ⟨50, -2, 2, -2, 2, 4, 4⟩ 2 0 heapIm heapLoc).written.count 8 = 2 := by
  intro heapIm heapLoc
  refine ⟨message_length _ _ _ _ _, ?_, ?_, ?_, by decide, by decide, ?_⟩
  · unfold message
    rw [sendBuffer_getD _ _ _ (by decide)]
    exact localRow_past _ _ _ _ _ _ (le_refl _)
  · have h := (worker_rounds ⟨50, -2, 2, -2, 2, 4, 4⟩ 2 1 heapLoc (by decide) 2
      { pixels := (initialization heapIm 4 4).pixels, trace := [] }).1
    exact h
  · rw [mainLoop_eq_rounds, rounds_trace]
    decide
  · unfold Proc.written
    rw [mainLoop_eq_rounds, rounds_trace]
    decide

/-! ## The transport model: every complete run assembles the same image -/

theorem asmState_zero (cfg : Config) (size : Nat) (heapIm : Bytes) (heapLoc : Nat → Nat → Bytes)
    (k : Nat) : asmState cfg size heapIm heapLoc k 0 = rounds cfg size heapIm heapLoc k := by
  simp [asmState]

theorem asmState_one (cfg : Config) (size : Nat) (heapIm : Bytes) (heapLoc : Nat → Nat → Bytes)
    (k : Nat) :
    asmState cfg size heapIm heapLoc k 1 =
      copyRow cfg size k (localRow cfg size heapLoc 0 k) (rounds cfg size heapIm heapLoc k) := by
  simp [asmState]

theorem asmState_succ (cfg : Config) (size : Nat) (heapIm : Bytes) (heapLoc : Nat → Nat → Bytes)
    (k ra : Nat) (hra : 1 ≤ ra) :
    asmState cfg size heapIm heapLoc k (ra + 1) =
      recvRow cfg size k (asmState cfg size heapIm heapLoc k ra) ra
        (message cfg size heapLoc ra k) := by
  obtain ⟨m, rfl⟩ : ∃ m, ra = m + 1 := ⟨ra - 1, by omega⟩
  unfold asmState
  rw [if_neg (by omega), if_neg (by omega)]
  have e1 : m + 1 + 1 - 1 = m + 1 := by omega
  have e2 : m + 1 - 1 = m := by omega
  rw [e1, e2, List.range'_concat, List.foldl_append, List.foldl_cons, List.foldl_nil]
  have e3 : 1 + 1 * m = m + 1 := by omega
  rw [e3]

theorem asmState_round_end (cfg : Config) (size : Nat) (heapIm : Bytes)
    (heapLoc : Nat → Nat → Bytes) (k : Nat) (hN : 1 ≤ size) :
    asmState cfg size heapIm heapLoc k size = rounds cfg size heapIm heapLoc (k + 1) := by
  rw [rounds_succ, roundBody_zero]
  unfold asmState
  rw [if_neg (by omega)]

theorem NetInv_init (cfg : Config) (size : Nat) (heapIm : Bytes) (heapLoc : Nat → Nat → Bytes) :
    NetInv cfg size heapIm heapLoc (Net.init cfg heapIm) where
  asm_eq := by
    show _ = asmState cfg size heapIm heapLoc 0 0
    rw [asmState_zero]; rfl
  next_lt := Or.inl rfl
  next_round := fun h => absurd rfl h
  queues := fun r _ _ => ⟨0, rfl, rfl⟩

theorem step_inv (cfg : Config) (size : Nat) (heapIm : Bytes) (heapLoc : Nat → Nat → Bytes)
    (s s1 : Net) (p : Nat) (h : NetInv cfg size heapIm heapLoc s)
    (hs : step cfg size heapLoc s p = some s1) : NetInv cfg size heapIm heapLoc s1 := by
  obtain ⟨hasm, hlt, hround, hq⟩ := h
  by_cases hp : p = 0
  · by_cases hk : s.asmRound < roll cfg size
    · by_cases hn : s.asmNext = 0
      · by_cases h1 : 1 < size
        · simp only [step, if_pos hp, if_pos hk, if_pos hn, if_pos h1, Option.some.injEq] at hs
          subst hs
          refine ⟨?_, Or.inr h1, fun _ => hk, ?_⟩
          · show copyRow _ _ _ _ s.asm = _
            rw [asmState_one, hasm, hn, asmState_zero]
          · intro r hr1 hr2
            obtain ⟨m, hm1, hm2⟩ := hq r hr1 hr2
            refine ⟨m, ?_, ?_⟩
            · simp only [Net.recvd] at hm1 ⊢
              rw [hn] at hm1
              rw [if_neg (by omega)] at hm1 ⊢
              exact hm1
            · simp only [Net.recvd] at hm2 ⊢
              rw [hn] at hm2
              rw [if_neg (by omega)] at hm2 ⊢
              exact hm2
        · simp only [step, if_pos hp, if_pos hk, if_pos hn, if_neg h1, Option.some.injEq] at hs
          subst hs
          refine ⟨?_, Or.inl hn, fun hne => absurd hn hne, ?_⟩
          · show copyRow _ _ _ _ s.asm = _
            rw [hasm, hn, asmState_zero, asmState_zero, rounds_succ, roundBody_zero]
            have e : size - 1 = 0 := by omega
            rw [e]
            rfl
          · intro r hr1 hr2
            omega
      · have hlt2 : s.asmNext < size := by
          rcases hlt with h0 | h0
          · exact absurd h0 hn
          · exact h0
        have hpos : 1 ≤ s.asmNext := by omega
        obtain ⟨m, hm1, hm2⟩ := hq s.asmNext hpos hlt2
        have hrecvd : s.recvd s.asmNext = s.asmRound := by
          simp [Net.recvd]
        rw [hrecvd] at hm1 hm2
        cases m with
        | zero =>
          simp only [List.range'_zero, List.map_nil] at hm1
          simp [step, hp, hk, hn, hm1] at hs
        | succ m =>
          have hm1b : s.queue s.asmNext =
              message cfg size heapLoc s.asmNext s.asmRound ::
                (List.range' (s.asmRound + 1) m).map (message cfg size heapLoc s.asmNext) := by
            rw [hm1]
            simp [List.range'_succ]
          have hasm1 : recvRow cfg size s.asmRound s.asm s.asmNext
              (message cfg size heapLoc s.asmNext s.asmRound) =
              asmState cfg size heapIm heapLoc s.asmRound (s.asmNext + 1) := by
            rw [asmState_succ _ _ _ _ _ _ hpos, hasm]
          by_cases hnext : s.asmNext + 1 < size
          · simp only [step, if_pos hp, if_pos hk, if_neg hn, hm1b, if_pos hnext,
              Option.some.injEq] at hs
            subst hs
            refine ⟨hasm1, Or.inr hnext, fun _ => hk, ?_⟩
            intro r hr1 hr2
            by_cases hr : r = s.asmNext
            · subst hr
              refine ⟨m, ?_, ?_⟩
              · simp [Net.recvd]
              · simp only [Net.recvd]
                rw [if_pos (by omega), hm2]
                omega
            · obtain ⟨m2, hq1, hq2⟩ := hq r hr1 hr2
              refine ⟨m2, ?_, ?_⟩
              · simp only [Net.recvd, Function.update_noteq hr] at hq1 ⊢
                by_cases hlt3 : r < s.asmNext
                · rw [if_pos hlt3] at hq1
                  rw [if_pos (by omega)]
                  exact hq1
                · rw [if_neg hlt3] at hq1
                  rw [if_neg (by omega)]
                  exact hq1
              · simp only [Net.recvd] at hq2 ⊢
                by_cases hlt3 : r < s.asmNext
                · rw [if_pos hlt3] at hq2
                  rw [if_pos (by omega)]
                  exact hq2
                · rw [if_neg hlt3] at hq2
                  rw [if_neg (by omega)]
                  exact hq2
          · simp only [step, if_pos hp, if_pos hk, if_neg hn, hm1b, if_neg hnext,
              Option.some.injEq] at hs
            subst hs
            have hsize : s.asmNext + 1 = size := by omega
            refine ⟨?_, Or.inl rfl, fun hne => absurd rfl hne, ?_⟩
            · show recvRow _ _ _ s.asm _ _ = _
              rw [hasm1, hsize, asmState_zero]
              exact asmState_round_end cfg size heapIm heapLoc s.asmRound (by omega)
            · intro r hr1 hr2
              by_cases hr : r = s.asmNext
              · subst hr
                refine ⟨m, ?_, ?_⟩
                · simp [Net.recvd]
                · simp only [Net.recvd]
                  rw [if_neg (by omega), hm2]
                  omega
              · obtain ⟨m2, hq1, hq2⟩ := hq r hr1 hr2
                have hlt3 : r < s.asmNext := by omega
                refine ⟨m2, ?_, ?_⟩
                · simp only [Net.recvd, Function.update_noteq hr] at hq1 ⊢
                  rw [if_pos hlt3] at hq1
                  rw [if_neg (by omega)]
                  exact hq1
                · simp only [Net.recvd] at hq2 ⊢
                  rw [if_pos hlt3] at hq2
                  rw [if_neg (by omega)]
                  exact hq2
    · simp [step, hp, hk] at hs
  · by_cases hp2 : p < size
    · by_cases hw : s.workerRound p < roll cfg size
      · simp only [step, if_neg hp, if_pos hp2, if_pos hw, Option.some.injEq] at hs
        subst hs
        refine ⟨hasm, hlt, hround, ?_⟩
        intro r hr1 hr2
        obtain ⟨m, hm1, hm2⟩ := hq r hr1 hr2
        by_cases hr : r = p
        · subst hr
          refine ⟨m + 1, ?_, ?_⟩
          · simp only [Net.recvd, Function.update_same] at hm1 hm2 ⊢
            rw [hm1, hm2, List.range'_concat]
            simp
          · simp only [Net.recvd, Function.update_same] at hm2 ⊢
            omega
        · refine ⟨m, ?_, ?_⟩
          · simp only [Net.recvd, Function.update_noteq hr] at hm1 ⊢
            exact hm1
          · simp only [Net.recvd, Function.update_noteq hr] at hm2 ⊢
            exact hm2
      · simp [step, hp, hp2, hw] at hs
    · simp [step, hp, hp2] at hs

theorem run_inv (cfg : Config) (size : Nat) (heapIm : Bytes) (heapLoc : Nat → Nat → Bytes)
    (sched : List Nat) :
    ∀ s s1 : Net, NetInv cfg size heapIm heapLoc s → run cfg size heapLoc s sched = some s1 →
      NetInv cfg size heapIm heapLoc s1 := by
  induction sched with
  | nil =>
    intro s s1 h hr
    simp only [run, Option.some.injEq] at hr
    subst hr; exact h
  | cons p ps ih =>
    intro s s1 h hr
    cases hstep : step cfg size heapLoc s p with
    | none => simp [run, hstep] at hr
    | some s2 =>
      simp only [run, hstep] at hr
      exact ih s2 s1 (step_inv cfg size heapIm heapLoc s s2 p h hstep) hr

/-- In every run from the initial state that ends with rank 0 out of its loop, the state of
rank 0 is the one `mainLoop` computes. -/
theorem run_complete (cfg : Config) (size : Nat) (heapIm : Bytes) (heapLoc : Nat → Nat → Bytes)
    (sched : List Nat) (s : Net)
    (hrun : run cfg size heapLoc (Net.init cfg heapIm) sched = some s)
    (hdone : s.asmRound = roll cfg size) :
    s.asm = mainLoop cfg size 0 heapIm heapLoc := by
  have hinv := run_inv cfg size heapIm heapLoc sched _ s (NetInv_init cfg size heapIm heapLoc) hrun
  have hnext : s.asmNext = 0 := by
    by_contra hne
    have := hinv.next_round hne
    omega
  rw [hinv.asm_eq, hnext, asmState_zero, hdone, mainLoop_eq_rounds]

/-- C5: with the transport modelled as one FIFO queue per sending rank and the receive of
rank 0 from rank `r` taking the head of queue `r`, any two runs of the same configuration,
group size and memory contents that end with rank 0 out of its loop leave byte-identical
image memory, whatever the order in which the ranks moved and the messages arrived; that
image is the one the round loop of rank 0 computes when each receive from `r` in round `k`
gets the row of rank `r`, round `k`. -/
theorem C5_arrival_order_determinism (cfg : Config) (size : Nat) (heapIm : Bytes)
    (heapLoc : Nat → Nat → Bytes) (sched1 sched2 : List Nat) (s1 s2 : Net)
    (hrun1 : run cfg size heapLoc (Net.init cfg heapIm) sched1 = some s1)
    (hrun2 : run cfg size heapLoc (Net.init cfg heapIm) sched2 = some s2)
    (hdone1 : s1.asmRound = roll cfg size) (hdone2 : s2.asmRound = roll cfg size) :
    s1.asm.pixels = s2.asm.pixels ∧
    s1.asm.pixels = (mainLoop cfg size 0 heapIm heapLoc).pixels := by
  rw [run_complete cfg size heapIm heapLoc sched1 s1 hrun1 hdone1,
    run_complete cfg size heapIm heapLoc sched2 s2 hrun2 hdone2]
  exact ⟨rfl, rfl⟩

/-- Witness for C5: `width = 4`, `height = 4`, two ranks.  In the first schedule rank 1 sends
both of its rows before rank 0 starts; in the second rank 0 starts first and each row arrives
just before it is received.  Both runs complete and assemble the same image. -/
theorem C5_arrival_order_determinism_witness :
    ∃ s1 s2 : Net,
      run ⟨50, -2, 2, -2, 2, 4, 4⟩ 2 (fun _ _ _ => 7)
        (Net.init ⟨50, -2, 2, -2, 2, 4, 4⟩ (fun _ => 0)) [1, 1, 0, 0, 0, 0] = some s1 ∧
      run ⟨50, -2, 2, -2, 2, 4, 4⟩ 2 (fun _ _ _ => 7)
        (Net.init ⟨50, -2, 2, -2, 2, 4, 4⟩ (fun _ => 0)) [0, 1, 0, 0, 1, 0] = some s2 ∧
      s1.asmRound = 2 ∧ s2.asmRound = 2 ∧
      s1.asm.pixels = s2.asm.pixels ∧
      s1.asm.pixels =
        (mainLoop ⟨50, -2, 2, -2, 2, 4, 4⟩ 2 0 (fun _ => 0) (fun _ _ _ => 7)).pixels :=
  ⟨_, _, rfl, rfl, rfl, rfl,
    C5_arrival_order_determinism ⟨50, -2, 2, -2, 2, 4, 4⟩ 2 (fun _ => 0) (fun _ _ _ => 7)
      [1, 1, 0, 0, 0, 0] [0, 1, 0, 0, 1, 0] _ _ rfl rfl rfl rfl⟩

/-! ## A complete run exists for every configuration -/

theorem run_append (cfg : Config) (size : Nat) (heapLoc : Nat → Nat → Bytes) (l1 l2 : List Nat) :
    ∀ s s1 : Net, run cfg size heapLoc s l1 = some s1 →
      run cfg size heapLoc s (l1 ++ l2) = run cfg size heapLoc s1 l2 := by
  induction l1 with
  | nil =>
    intro s s1 h
    simp only [run, Option.some.injEq] at h
    subst h; rfl
  | cons p ps ih =>
    intro s s1 h
    cases hstep : step cfg size heapLoc s p with
    | none => simp [run, hstep] at h
    | some s2 =>
      simp only [run, hstep] at h
      simp only [List.cons_append, run, hstep]
      exact ih s2 s1 h

theorem lockStep_copy (cfg : Config) (size : Nat) (heapLoc : Nat → Nat → Bytes) (s : Net)
    (k : Nat) (h : LockStep size s k 0) (hk : k < roll cfg size) :
    ∃ s1, run cfg size heapLoc s [0] = some s1 ∧
      (if 1 < size then LockStep size s1 k 1 else LockStep size s1 (k + 1) 0) := by
  obtain ⟨h1, h2, h3⟩ := h
  have hk2 : s.asmRound < roll cfg size := by omega
  by_cases hs : 1 < size
  · refine ⟨_, by simp only [run, step, if_pos hk2, if_pos h2, if_pos hs]; rfl, ?_⟩
    rw [if_pos hs]
    refine ⟨h1, rfl, ?_⟩
    intro r hr1 hr2
    obtain ⟨hq, hw⟩ := h3 r hr1 hr2
    refine ⟨hq, ?_⟩
    rw [hw, if_neg (by omega), if_neg (by omega)]
  · refine ⟨_, by simp only [run, step, if_pos hk2, if_pos h2, if_neg hs]; rfl, ?_⟩
    rw [if_neg hs]
    refine ⟨by show s.asmRound + 1 = k + 1; omega, h2, ?_⟩
    intro r hr1 hr2
    omega

theorem lockStep_recv (cfg : Config) (size : Nat) (heapLoc : Nat → Nat → Bytes) (s : Net)
    (k ra : Nat) (h : LockStep size s k ra) (hk : k < roll cfg size) (hra1 : 1 ≤ ra)
    (hra2 : ra < size) :
    ∃ s1, run cfg size heapLoc s [ra, 0] = some s1 ∧
      (if ra + 1 < size then LockStep size s1 k (ra + 1) else LockStep size s1 (k + 1) 0) := by
  obtain ⟨h1, h2, h3⟩ := h
  obtain ⟨hq, hw⟩ := h3 ra hra1 hra2
  rw [if_neg (by omega)] at hw
  have hne : ra ≠ 0 := by omega
  have hw2 : s.workerRound ra < roll cfg size := by omega
  have hk2 : s.asmRound < roll cfg size := by omega
  have hn2 : ¬ s.asmNext = 0 := by omega
  by_cases hs : ra + 1 < size
  · have hs2 : s.asmNext + 1 < size := by omega
    refine ⟨_, by
      simp only [run, step, if_neg hne, if_pos hra2, if_pos hw2, if_pos hk2, if_neg hn2, h2,
        Function.update_same, hq, List.nil_append, if_pos hs]
      rfl, ?_⟩
    rw [if_pos hs]
    refine ⟨h1, rfl, ?_⟩
    intro r hr1 hr2
    by_cases hr : r = ra
    · subst hr
      simp only [Function.update_same]
      refine ⟨trivial, ?_⟩
      rw [hw, if_pos (by omega)]
    · obtain ⟨hq3, hw3⟩ := h3 r hr1 hr2
      simp only [Function.update_noteq hr]
      refine ⟨hq3, ?_⟩
      rw [hw3]
      by_cases hlt : r < ra
      · rw [if_pos hlt, if_pos (by omega)]
      · rw [if_neg hlt, if_neg (by omega)]
  · have hs2 : ¬ s.asmNext + 1 < size := by omega
    refine ⟨_, by
      simp only [run, step, if_neg hne, if_pos hra2, if_pos hw2, if_pos hk2, if_neg hn2, h2,
        Function.update_same, hq, List.nil_append, if_neg hs]
      rfl, ?_⟩
    rw [if_neg hs]
    refine ⟨by show s.asmRound + 1 = k + 1; omega, rfl, ?_⟩
    intro r hr1 hr2
    by_cases hr : r = ra
    · subst hr
      simp only [Function.update_same]
      refine ⟨trivial, ?_⟩
      rw [hw, if_neg (by omega)]
    · obtain ⟨hq3, hw3⟩ := h3 r hr1 hr2
      simp only [Function.update_noteq hr]
      refine ⟨hq3, ?_⟩
      rw [hw3, if_pos (by omega), if_neg (by omega)]

theorem lockStep_recvs (cfg : Config) (size : Nat) (heapLoc : Nat → Nat → Bytes) (k : Nat)
    (hk : k < roll cfg size) (d : Nat) :
    ∀ (ra : Nat) (s : Net), 1 ≤ ra → ra + (d + 1) = size → LockStep size s k ra →
      ∃ s1, run cfg size heapLoc s ((List.range' ra (d + 1)).flatMap (fun r => [r, 0])) =
          some s1 ∧ LockStep size s1 (k + 1) 0 := by
  induction d with
  | zero =>
    intro ra s hra hsz h
    obtain ⟨s1, hrun, hl⟩ := lockStep_recv cfg size heapLoc s k ra h hk hra (by omega)
    rw [if_neg (by omega)] at hl
    exact ⟨s1, hrun, hl⟩
  | succ d ih =>
    intro ra s hra hsz h
    obtain ⟨s1, hrun, hl⟩ := lockStep_recv cfg size heapLoc s k ra h hk hra (by omega)
    rw [if_pos (by omega)] at hl
    obtain ⟨s2, hrun2, hl2⟩ := ih (ra + 1) s1 (by omega) (by omega) hl
    refine ⟨s2, ?_, hl2⟩
    rw [List.range'_succ, List.flatMap_cons, run_append cfg size heapLoc _ _ s s1 hrun]
    exact hrun2

theorem lockStep_round (cfg : Config) (size : Nat) (heapLoc : Nat → Nat → Bytes) (s : Net)
    (k : Nat) (hN : 1 ≤ size) (h : LockStep size s k 0) (hk : k < roll cfg size) :
    ∃ s1, run cfg size heapLoc s (roundSchedule size) = some s1 ∧
      LockStep size s1 (k + 1) 0 := by
  obtain ⟨s1, hrun, hl⟩ := lockStep_copy cfg size heapLoc s k h hk
  by_cases hs : 1 < size
  · rw [if_pos hs] at hl
    obtain ⟨d, hd⟩ : ∃ d, size - 1 = d + 1 := ⟨size - 2, by omega⟩
    obtain ⟨s2, hrun2, hl2⟩ := lockStep_recvs cfg size heapLoc k hk d 1 s1 (le_refl 1)
      (by omega) hl
    refine ⟨s2, ?_, hl2⟩
    unfold roundSchedule
    rw [hd]
    have e : (0 :: (List.range' 1 (d + 1)).flatMap (fun r => [r, 0])) =
        [0] ++ (List.range' 1 (d + 1)).flatMap (fun r => [r, 0]) := rfl
    rw [e, run_append cfg size heapLoc _ _ s s1 hrun]
    exact hrun2
  · rw [if_neg hs] at hl
    refine ⟨s1, ?_, hl⟩
    unfold roundSchedule
    have e : size - 1 = 0 := by omega
    rw [e]
    exact hrun

theorem lockStep_rounds (cfg : Config) (size : Nat) (heapIm : Bytes)
    (heapLoc : Nat → Nat → Bytes) (hN : 1 ≤ size) (n : Nat) (hn : n ≤ roll cfg size) :
    ∃ s1, run cfg size heapLoc (Net.init cfg heapIm)
        ((List.range n).flatMap (fun _ => roundSchedule size)) = some s1 ∧
      LockStep size s1 n 0 := by
  induction n with
  | zero =>
    refine ⟨Net.init cfg heapIm, rfl, rfl, rfl, ?_⟩
    intro r _ _
    exact ⟨rfl, rfl⟩
  | succ n ih =>
    obtain ⟨s1, hrun, hl⟩ := ih (by omega)
    obtain ⟨s2, hrun2, hl2⟩ := lockStep_round cfg size heapLoc s1 n hN hl (by omega)
    refine ⟨s2, ?_, hl2⟩
    rw [List.range_succ, List.flatMap_append, run_append cfg size heapLoc _ _ _ s1 hrun]
    simp only [List.flatMap_cons, List.flatMap_nil, List.append_nil]
    exact hrun2

/-- For every configuration and every group size `size ≥ 1` the lock-step schedule is a
complete run: it ends with rank 0 out of its loop. -/
theorem complete_run_exists (cfg : Config) (size : Nat) (heapIm : Bytes)
    (heapLoc : Nat → Nat → Bytes) (hN : 1 ≤ size) :
    ∃ s, run cfg size heapLoc (Net.init cfg heapIm) (lockStepSchedule cfg size) = some s ∧
      s.asmRound = roll cfg size := by
  obtain ⟨s, hrun, hl⟩ := lockStep_rounds cfg size heapIm heapLoc hN (roll cfg size) (le_refl _)
  exact ⟨s, hrun, hl.1⟩

/-! ## What the gather leaves untouched -/

theorem recvLoop_frame (cfg : Config) (size k : Nat) (heapLoc : Nat → Nat → Bytes) (j : Nat)
    (hj : (k + 1) * size * cfg.width < j) (m : Nat) :
    ∀ st : Proc, m + 1 ≤ size →
      ((List.range' 1 m).foldl
        (fun s r => recvRow cfg size k s r (message cfg size heapLoc r k)) st).pixels j =
        st.pixels j := by
  induction m with
  | zero => intro st _; rfl
  | succ m ih =>
    intro st hm
    rw [List.range'_concat, List.foldl_append, List.foldl_cons, List.foldl_nil, recvRow_pixels]
    have hle : (globalRow size k (1 + 1 * m) + 1) * cfg.width ≤ (k + 1) * size * cfg.width := by
      apply Nat.mul_le_mul_right
      have e : (k + 1) * size = k * size + size := Nat.succ_mul k size
      unfold globalRow
      omega
    rw [Nat.succ_mul] at hle
    rw [if_neg (by omega), if_neg (by omega)]
    exact ih st (by omega)

/-- After `n` rounds, every byte past index `n * size * width` holds what it held after
allocation. -/
theorem rounds_frame (cfg : Config) (size : Nat) (heapIm : Bytes) (heapLoc : Nat → Nat → Bytes)
    (hN : 1 ≤ size) (n j : Nat) (hj : n * size * cfg.width < j) :
    (rounds cfg size heapIm heapLoc n).pixels j = heapIm j := by
  induction n with
  | zero => rfl
  | succ n ih =>
    have hle : (n * size + 1) * cfg.width ≤ (n + 1) * size * cfg.width := by
      apply Nat.mul_le_mul_right
      have e : (n + 1) * size = n * size + size := Nat.succ_mul n size
      omega
    rw [Nat.succ_mul] at hle
    rw [rounds_succ, roundBody_zero, recvLoop_frame cfg size n heapLoc j hj (size - 1) _ (by omega),
      copyRow_pixels, if_neg (by omega)]
    exact ih (by omega)

/-- The rows past `size * (height / size)`: every byte of them except the first byte of row
`size * (height / size)` holds what it held after allocation. -/
theorem trailing_rows_frame (cfg : Config) (size : Nat) (heapIm : Bytes)
    (heapLoc : Nat → Nat → Bytes) (hN : 1 ≤ size) (r c : Nat)
    (hr : size * (cfg.height / size) ≤ r) (hc : c < cfg.width)
    (hne : ¬ (r = size * (cfg.height / size) ∧ c = 0)) :
    (mainLoop cfg size 0 heapIm heapLoc).pixels (r * cfg.width + c) =
      heapIm (r * cfg.width + c) := by
  rw [mainLoop_eq_rounds]
  apply rounds_frame cfg size heapIm heapLoc hN
  unfold roll
  rw [Nat.mul_comm (cfg.height / size) size]
  by_cases hreq : r = size * (cfg.height / size)
  · have hc0 : c ≠ 0 := fun h0 => hne ⟨hreq, h0⟩
    rw [hreq]
    omega
  · have hlt : size * (cfg.height / size) < r := by omega
    have h1 : (size * (cfg.height / size) + 1) * cfg.width ≤ r * cfg.width :=
      Nat.mul_le_mul_right _ hlt
    rw [Nat.succ_mul] at h1
    omega

end Mandel
